import Mathlib

/-!
Shallow embedding of the personnel-register program (src/position.py,
src/employee.py, src/payroll.py, src/personnel_manager.py) and proofs about its
specified behaviour.  Numbers (`float`) are modelled as exact rationals, the
`uuid.uuid4()` supply as a counter carried in the store, `datetime.date.today()`
as an explicit `today` argument at each call that reads the clock, and the
persistence file as a `saved` snapshot updated by `save_data`.
-/

namespace Personnel

/-- Python `str.lower` (faithful on ASCII input), written over the character
list so that it evaluates by kernel reduction. -/
def pyLower (s : String) : String := ⟨s.data.map Char.toLower⟩

/-- Python `str.strip`: drop leading and trailing whitespace. -/
def pyStrip (s : String) : String :=
  ⟨((s.data.dropWhile Char.isWhitespace).reverse.dropWhile Char.isWhitespace).reverse⟩

/-- Lexicographic comparison of character lists by code point, Python string
`<=`. -/
def listLe : List Char → List Char → Bool
  | [], _ => true
  | _ :: _, [] => false
  | a :: as, b :: bs =>
    if a.toNat < b.toNat then true
    else if b.toNat < a.toNat then false
    else listLe as bs

/-- Python string comparison `a <= b` (lexicographic by code point). -/
def pyStrLe (a b : String) : Bool := listLe a.data b.data

/-- Calendar date as stored by the program (`datetime.date`): year, month, day. -/
structure Date where
  y : Nat
  m : Nat
  d : Nat
deriving DecidableEq

/-- Comparison `a <= b` on dates, chronological (lexicographic on year, month,
day), matching Python date ordering on valid dates. -/
def Date.le (a b : Date) : Bool :=
  decide (a.y < b.y ∨ (a.y = b.y ∧ (a.m < b.m ∨ (a.m = b.m ∧ a.d ≤ b.d))))

/-- Errors raised by the program, one constructor per distinct
`raise ValueError(...)` message in the source.  The spec taxonomy maps
`emptyName`, `badAccessLevel`, `invalidFirstName`, `invalidLastName`,
`invalidName` and `futureHireDate` to ValidationError, `duplicateName` to
DuplicateNameError, `positionNotFound` and `employeeNotFound` to NotFoundError,
and `referenced` to ReferencedError. -/
inductive Err where
  | emptyName
  | badAccessLevel
  | invalidFirstName
  | invalidLastName
  | invalidName
  | futureHireDate
  | duplicateName
  | positionNotFound
  | employeeNotFound
  | referenced
deriving DecidableEq

structure Position where
  id : String
  name : String
  access_level : Int
  salary : Rat
deriving DecidableEq

def ALLOWED_ACCESS_LEVELS : List Int := [1, 2, 3, 4, 5]

/-- Position.__init__ (src/position.py 18-37): strips the name, validates
non-emptiness of the stripped name and access-level membership.  The caller
passes the identifier, modelling `id or str(uuid.uuid4())`. -/
def mkPosition (name : String) (access_level : Int) (salary : Rat) (id : String) :
    Except Err Position :=
  let nm := pyStrip name
  if nm == "" then .error .emptyName
  else if !(ALLOWED_ACCESS_LEVELS.contains access_level) then .error .badAccessLevel
  else .ok ⟨id, nm, access_level, salary⟩

/-- Python `str.isalpha`: non-empty and every character alphabetic (modelled with
`Char.isAlpha`, faithful on ASCII input). -/
def pyIsAlpha (s : String) : Bool :=
  !s.data.isEmpty && s.data.all Char.isAlpha

/-- Python `name[0].isupper()` for a non-empty string (update_employee and the
Employee constructor only reach it behind `isalpha`, whose short-circuit makes
the index safe). -/
def firstUpper (s : String) : Bool :=
  match s.data with
  | [] => false
  | c :: _ => c.isUpper

/-- Employee.validate_name (src/employee.py 93-95):
`name.isalpha() and name[0].isupper()`. -/
def validate_name (s : String) : Bool :=
  pyIsAlpha s && firstUpper s

/-- Employee record.  The Python object stores a reference to the Position
object; since that object is always the manager dictionary entry for its id,
the embedding stores the position id and resolves it through the store. -/
structure Employee where
  id : String
  first_name : String
  last_name : String
  position_id : String
  hire_date : Date
deriving DecidableEq

/-- Employee.__init__ (src/employee.py 66-91): validates both names and that the
hire date is not after `today`. -/
def mkEmployee (first_name last_name : String) (position_id : String)
    (hire_date today : Date) (id : String) : Except Err Employee :=
  if !(validate_name first_name) then .error .invalidFirstName
  else if !(validate_name last_name) then .error .invalidLastName
  else if !(Date.le hire_date today) then .error .futureHireDate
  else .ok ⟨id, first_name, last_name, position_id, hire_date⟩

/-- PersonnelManager state: `positions` is the id-to-Position dict in insertion
order, `employees` the list, `saved` the contents of the persistence file after
the last `save_data`, and `ctr` a supply of fresh identifiers modelling
`uuid.uuid4()`. -/
structure Store where
  positions : List Position
  employees : List Employee
  saved : List Position × List Employee
  ctr : Nat
deriving DecidableEq

def natId (n : Nat) : String := toString n

def emptyStore : Store := ⟨[], [], ([], []), 0⟩

/-- PersonnelManager.save_data (src/personnel_manager.py 36-43): whole-file
rewrite of both collections. -/
def save_data (s : Store) : Store :=
  { s with saved := (s.positions, s.employees) }

/-- Python dict assignment `self.positions[pos.id] = pos`: replace in place if
the key exists, else append (dict insertion order preserved). -/
def dictInsert (ps : List Position) (p : Position) : List Position :=
  if ps.any (fun q => q.id == p.id) then
    ps.map (fun q => if q.id == p.id then p else q)
  else ps ++ [p]

/-- PersonnelManager.add_position (src/personnel_manager.py 46-53): the
case-insensitive uniqueness check compares the raw argument against the stored
(already stripped) names; the constructor then strips before storing. -/
def add_position (s : Store) (name : String) (access_level : Int) (salary : Rat) :
    Store × Option Err :=
  if s.positions.any (fun p => pyLower p.name == pyLower name) then
    (s, some .duplicateName)
  else
    match mkPosition name access_level salary (natId s.ctr) with
    | .error e => (s, some e)
    | .ok p =>
      (save_data { s with positions := dictInsert s.positions p, ctr := s.ctr + 1 }, none)

/-- PersonnelManager.delete_position (src/personnel_manager.py 55-62): the
referenced check comes before the existence check. -/
def delete_position (s : Store) (pos_id : String) : Store × Option Err :=
  if s.employees.any (fun e => e.position_id == pos_id) then (s, some .referenced)
  else if !(s.positions.any (fun p => p.id == pos_id)) then (s, some .positionNotFound)
  else
    (save_data { s with positions := s.positions.filter (fun p => p.id != pos_id) }, none)

/-- Python in-place mutation of the Position object held in the dict (and aliased
by employees): rewrite the entries with the given id. -/
def mapPos (s : Store) (pos_id : String) (f : Position → Position) : Store :=
  { s with positions := s.positions.map (fun q => if q.id == pos_id then f q else q) }

/-- Sequencing of mutating steps that may raise: the state reached at the raise
point is kept (Python mutates in place) and the error aborts the rest. -/
def andThen (r : Store × Option Err) (f : Store → Store × Option Err) :
    Store × Option Err :=
  match r with
  | (s, some e) => (s, some e)
  | (s, none) => f s

/-- Name step of update_position (src/personnel_manager.py 75-81): `if name:`
(truthiness, so an empty string is skipped, not validated); the case-insensitive
uniqueness check excludes the position itself and compares the raw strings; the
name is stored verbatim, without trimming. -/
def pStepName (pos_id : String) (name? : Option String) (s : Store) :
    Store × Option Err :=
  match name? with
  | none => (s, none)
  | some n =>
    if n != "" then
      if s.positions.any (fun q => pyLower q.name == pyLower n && q.id != pos_id) then
        (s, some .duplicateName)
      else (mapPos s pos_id (fun q => { q with name := n }), none)
    else (s, none)

/-- Access-level step of update_position (src/personnel_manager.py 82-85). -/
def pStepLevel (pos_id : String) (lvl? : Option Int) (s : Store) :
    Store × Option Err :=
  match lvl? with
  | none => (s, none)
  | some a =>
    if ALLOWED_ACCESS_LEVELS.contains a then
      (mapPos s pos_id (fun q => { q with access_level := a }), none)
    else (s, some .badAccessLevel)

/-- Salary step of update_position (src/personnel_manager.py 86-87). -/
def pStepSalary (pos_id : String) (sal? : Option Rat) (s : Store) : Store :=
  match sal? with
  | none => s
  | some v => mapPos s pos_id (fun q => { q with salary := v })

/-- PersonnelManager.update_position (src/personnel_manager.py 64-89): the three
fields are validated and applied one after the other; a raise keeps the earlier
in-memory mutations of that call but skips save_data. -/
def update_position (s : Store) (pos_id : String) (name? : Option String)
    (lvl? : Option Int) (sal? : Option Rat) : Store × Option Err :=
  if s.positions.any (fun p => p.id == pos_id) then
    andThen (pStepName pos_id name? s) (fun s1 =>
      andThen (pStepLevel pos_id lvl? s1) (fun s2 =>
        (save_data (pStepSalary pos_id sal? s2), none)))
  else (s, some .positionNotFound)

/-- PersonnelManager.add_employee (src/personnel_manager.py 92-117): names and
date are pre-checked (one combined name error), then position existence, then
the Employee constructor re-validates. -/
def add_employee (s : Store) (first_name last_name position_id : String)
    (hire_date today : Date) : Store × Option Err :=
  if !(validate_name first_name) || !(validate_name last_name) then
    (s, some .invalidName)
  else if !(Date.le hire_date today) then (s, some .futureHireDate)
  else if !(s.positions.any (fun p => p.id == position_id)) then
    (s, some .positionNotFound)
  else
    match mkEmployee first_name last_name position_id hire_date today (natId s.ctr) with
    | .error e => (s, some e)
    | .ok emp =>
      (save_data { s with employees := s.employees ++ [emp], ctr := s.ctr + 1 }, none)

/-- PersonnelManager.delete_employee (src/personnel_manager.py 119-125): the list
is rebuilt without the id; if nothing was removed the rebuilt list equals the
old one and the error is raised without saving. -/
def delete_employee (s : Store) (emp_id : String) : Store × Option Err :=
  let rest := s.employees.filter (fun e => e.id != emp_id)
  if rest.length == s.employees.length then (s, some .employeeNotFound)
  else (save_data { s with employees := rest }, none)

/-- Patch for update_employee: one optional value per recognized keyword. -/
structure EmpPatch where
  first_name : Option String := none
  last_name : Option String := none
  position_id : Option String := none
  hire_date : Option Date := none
deriving DecidableEq

/-- Update of the first employee in the list with the given id (the Python loop
body runs for the first match only). -/
def updFirst (es : List Employee) (emp_id : String) (f : Employee → Employee) :
    List Employee :=
  match es with
  | [] => []
  | e :: rest => if e.id == emp_id then f e :: rest else e :: updFirst rest emp_id f

/-- First-name step of update_employee (src/personnel_manager.py 131-135). -/
def eStepFirst (emp_id : String) (p : EmpPatch) (s : Store) : Store × Option Err :=
  match p.first_name with
  | none => (s, none)
  | some n =>
    if validate_name n then
      ({ s with employees := updFirst s.employees emp_id (fun e => { e with first_name := n }) }, none)
    else (s, some .invalidFirstName)

/-- Last-name step of update_employee (src/personnel_manager.py 136-140). -/
def eStepLast (emp_id : String) (p : EmpPatch) (s : Store) : Store × Option Err :=
  match p.last_name with
  | none => (s, none)
  | some n =>
    if validate_name n then
      ({ s with employees := updFirst s.employees emp_id (fun e => { e with last_name := n }) }, none)
    else (s, some .invalidLastName)

/-- Position step of update_employee (src/personnel_manager.py 141-146). -/
def eStepPos (emp_id : String) (p : EmpPatch) (s : Store) : Store × Option Err :=
  match p.position_id with
  | none => (s, none)
  | some pid =>
    if s.positions.any (fun q => q.id == pid) then
      ({ s with employees := updFirst s.employees emp_id (fun e => { e with position_id := pid }) }, none)
    else (s, some .positionNotFound)

/-- Hire-date step of update_employee (src/personnel_manager.py 147-152). -/
def eStepDate (emp_id : String) (p : EmpPatch) (today : Date) (s : Store) :
    Store × Option Err :=
  match p.hire_date with
  | none => (s, none)
  | some d =>
    if Date.le d today then
      ({ s with employees := updFirst s.employees emp_id (fun e => { e with hire_date := d }) }, none)
    else (s, some .futureHireDate)

/-- PersonnelManager.update_employee (src/personnel_manager.py 127-156): the four
recognized fields are validated and applied one at a time, in order; a later
failure keeps earlier in-memory mutations of that call but skips save_data. -/
def update_employee (s : Store) (emp_id : String) (p : EmpPatch) (today : Date) :
    Store × Option Err :=
  if s.employees.any (fun e => e.id == emp_id) then
    andThen (eStepFirst emp_id p s) (fun s1 =>
      andThen (eStepLast emp_id p s1) (fun s2 =>
        andThen (eStepPos emp_id p s2) (fun s3 =>
          andThen (eStepDate emp_id p today s3) (fun s4 =>
            (save_data s4, none)))))
  else (s, some .employeeNotFound)

/-- Name of the referenced position object, the Python attribute
`e.position.name`, resolved through the dictionary (the employee object aliases
the dict entry for its id). -/
def posName (s : Store) (e : Employee) : String :=
  match s.positions.find? (fun p => p.id == e.position_id) with
  | some p => p.name
  | none => ""

/-- Sort-key comparison used by list_employees for an already defaulted key. -/
def sortKeyLe (s : Store) (key : String) : Employee → Employee → Bool :=
  if key == "position" then
    fun a b => pyStrLe (pyLower (posName s a)) (pyLower (posName s b))
  else if key == "hire_date" then
    fun a b => Date.le a.hire_date b.hire_date
  else
    fun a b => pyStrLe a.last_name b.last_name

/-- Key defaulting of list_employees (src/personnel_manager.py 160-161). -/
def normKey (sort_by : String) : String :=
  if ["last_name", "position", "hire_date"].contains sort_by then sort_by
  else "last_name"

/-- PersonnelManager.list_employees (src/personnel_manager.py 158-164): Python
`sorted` is a stable ascending sort over a fresh list, embedded with the stable
`List.mergeSort`; the stored collection is not touched (the embedding returns
only the new list). -/
def list_employees (s : Store) (sort_by : String) : List Employee :=
  s.employees.mergeSort (sortKeyLe s (normKey sort_by))

def PDFO_RATE : Rat := 18 / 100

def MILITARY_TAX : Rat := 15 / 1000

/-- Python round-half-to-even on an exact rational. -/
def roundHalfEven (x : Rat) : Int :=
  let f := ⌊x⌋
  if x - f < 1 / 2 then f
  else if (1 : Rat) / 2 < x - f then f + 1
  else if f % 2 = 0 then f else f + 1

/-- Python `round(x, 2)`, numbers modelled as exact rationals. -/
def pyRound2 (x : Rat) : Rat := ((roundHalfEven (x * 100) : Int) : Rat) / 100

/-- Payroll.calculate_net (src/payroll.py 9-12). -/
def calculate_net (gross : Rat) : Rat :=
  pyRound2 (gross * (1 - (PDFO_RATE + MILITARY_TAX)))

/-- Raw persisted record for a position: each JSON field present or absent. -/
structure PRec where
  id : Option String := none
  name : Option String := none
  access_level : Option Int := none
  salary : Option Rat := none
deriving DecidableEq

/-- Raw persisted record for an employee. -/
structure ERec where
  id : Option String := none
  first_name : Option String := none
  last_name : Option String := none
  position_id : Option String := none
  hire_date : Option String := none
deriving DecidableEq

/-- Persisted document: the two top-level sequences. -/
structure Doc where
  positions : List PRec := []
  employees : List ERec := []
deriving DecidableEq

def isLeap (y : Nat) : Bool := y % 4 == 0 && (y % 100 != 0 || y % 400 == 0)

def daysInMonth (y m : Nat) : Nat :=
  if m == 2 then (if isLeap y then 29 else 28)
  else if m == 4 || m == 6 || m == 9 || m == 11 then 30
  else 31

/-- Split a character list at every dash (the groups of `"%Y-%m-%d"` matching). -/
def splitDash : List Char → List (List Char)
  | [] => [[]]
  | c :: rest =>
    match splitDash rest with
    | [] => [[c]]
    | g :: gs => if c = '-' then [] :: g :: gs else (c :: g) :: gs

/-- Decimal value of a digit group. -/
def digitsToNat (cs : List Char) : Nat :=
  cs.foldl (fun acc c => acc * 10 + (c.toNat - 48)) 0

/-- datetime.strptime(s, "%Y-%m-%d").date(): three dash-separated all-digit
groups (year up to 4 digits, month and day up to 2), with the range checks
date() performs; anything else raises, caught by from_dict. -/
def parseDate (s : String) : Option Date :=
  match splitDash s.data with
  | [ys, ms, ds] =>
    if !ys.isEmpty && ys.length ≤ 4 && ys.all Char.isDigit
        && !ms.isEmpty && ms.length ≤ 2 && ms.all Char.isDigit
        && !ds.isEmpty && ds.length ≤ 2 && ds.all Char.isDigit then
      let y := digitsToNat ys
      let m := digitsToNat ms
      let d := digitsToNat ds
      if 1 ≤ y && 1 ≤ m && m ≤ 12 && 1 ≤ d && d ≤ daysInMonth y m then
        some ⟨y, m, d⟩
      else none
    else none
  | _ => none

/-- Position.from_dict (src/position.py 47-54): defaults for missing fields, then
the constructor (which can raise). -/
def posFromDict (r : PRec) (fresh : String) : Except Err Position :=
  mkPosition (r.name.getD "") (r.access_level.getD 1) (r.salary.getD 0) (r.id.getD fresh)

/-- Employee.from_dict (src/employee.py 106-133): an unparseable date or an
unresolvable position id yields `ok none` (record reported and skipped, soft);
the constructor validation may still raise, which propagates (hard). -/
def empFromDict (r : ERec) (positions : List Position) (today : Date)
    (fresh : String) : Except Err (Option Employee) :=
  match parseDate (r.hire_date.getD "") with
  | none => .ok none
  | some hd =>
    match r.position_id.bind (fun pid => positions.find? (fun p => p.id == pid)) with
    | none => .ok none
    | some pos =>
      match mkEmployee (r.first_name.getD "") (r.last_name.getD "") pos.id hd today
          (r.id.getD fresh) with
      | .error e => .error e
      | .ok emp => .ok (some emp)

/-- Position loop of load_data (src/personnel_manager.py 27-29): a raising record
aborts the load with the collections as mutated so far. -/
def loadPositions (rs : List PRec) (s : Store) : Store × Option Err :=
  match rs with
  | [] => (s, none)
  | r :: rest =>
    match posFromDict r (natId s.ctr) with
    | .error e => (s, some e)
    | .ok p =>
      loadPositions rest { s with positions := dictInsert s.positions p, ctr := s.ctr + 1 }

/-- Employee loop of load_data (src/personnel_manager.py 31-34): `None` records
are skipped, constructor raises abort the load. -/
def loadEmployees (rs : List ERec) (today : Date) (s : Store) : Store × Option Err :=
  match rs with
  | [] => (s, none)
  | r :: rest =>
    match empFromDict r s.positions today (natId s.ctr) with
    | .error e => (s, some e)
    | .ok none => loadEmployees rest today s
    | .ok (some emp) =>
      loadEmployees rest today { s with employees := s.employees ++ [emp], ctr := s.ctr + 1 }

/-- PersonnelManager.load_data (src/personnel_manager.py 17-34): a missing file
persists the current (empty at construction) store; otherwise positions then
employees are restored from the document. -/
def load_data (s : Store) (doc? : Option Doc) (today : Date) : Store × Option Err :=
  match doc? with
  | none => (save_data s, none)
  | some doc =>
    match loadPositions doc.positions s with
    | (s1, some e) => (s1, some e)
    | (s1, none) => loadEmployees doc.employees today s1

/-- One PersonnelManager operation with its arguments (`today` given where the
source reads the clock). -/
inductive Op where
  | addPosition (name : String) (access_level : Int) (salary : Rat)
  | updatePosition (pos_id : String) (name? : Option String) (lvl? : Option Int) (sal? : Option Rat)
  | deletePosition (pos_id : String)
  | addEmployee (first_name last_name position_id : String) (hire_date today : Date)
  | updateEmployee (emp_id : String) (p : EmpPatch) (today : Date)
  | deleteEmployee (emp_id : String)
  | load (doc? : Option Doc) (today : Date)

def applyOp (op : Op) (s : Store) : Store × Option Err :=
  match op with
  | .addPosition n a sal => add_position s n a sal
  | .updatePosition pid n a sal => update_position s pid n a sal
  | .deletePosition pid => delete_position s pid
  | .addEmployee f l pid hd t => add_employee s f l pid hd t
  | .updateEmployee eid p t => update_employee s eid p t
  | .deleteEmployee eid => delete_employee s eid
  | .load doc t => load_data s doc t

/-- Success test for `Except`. -/
def exceptOk {ε α : Type} (x : Except ε α) : Bool :=
  match x with
  | .ok _ => true
  | .error _ => false

/-- Error of the first invalid supplied field of an update_employee call, in the
processing order of the source (first_name, last_name, position_id, hire_date). -/
def firstErr (s : Store) (p : EmpPatch) (today : Date) : Option Err :=
  if p.first_name.any (fun n => !(validate_name n)) then some .invalidFirstName
  else if p.last_name.any (fun n => !(validate_name n)) then some .invalidLastName
  else if p.position_id.any (fun pid => !(s.positions.any (fun q => q.id == pid))) then
    some .positionNotFound
  else if p.hire_date.any (fun d => !(Date.le d today)) then some .futureHireDate
  else none

/-- Classification of a persisted employee record that from_dict skips softly:
its date string is unparseable, or its position id does not resolve against the
given position collection. -/
def softBad (P : List Position) (r : ERec) : Bool :=
  !(parseDate (r.hire_date.getD "")).isSome ||
  !((r.position_id.bind (fun pid => P.find? (fun p => p.id == pid))).isSome)

/-- Classification of a persisted employee record that loads successfully: the
date parses, the position resolves, both (defaulted) names pass the predicate,
and the date is not in the future. -/
def goodRec (P : List Position) (today : Date) (r : ERec) : Bool :=
  match parseDate (r.hire_date.getD "") with
  | none => false
  | some hd =>
    (r.position_id.bind (fun pid => P.find? (fun p => p.id == pid))).isSome &&
    validate_name (r.first_name.getD "") && validate_name (r.last_name.getD "") &&
    Date.le hd today

/-- Identifying pair of an employee, for stating which records were loaded. -/
def namePair (e : Employee) : String × String := (e.first_name, e.last_name)

/-- Identifying pair of a persisted employee record. -/
def recNamePair (r : ERec) : String × String :=
  (r.first_name.getD "", r.last_name.getD "")

/-- Errors the spec taxonomy classes as ValidationError. -/
def isValidationErr : Err → Bool
  | .emptyName => true
  | .badAccessLevel => true
  | .invalidFirstName => true
  | .invalidLastName => true
  | .invalidName => true
  | .futureHireDate => true
  | _ => false

/-- Referential integrity of a list of employees with respect to a list of
positions: every employee references a present position id. -/
def empsOk (P : List Position) (es : List Employee) : Prop :=
  ∀ e ∈ es, e.position_id ∈ P.map Position.id

/-- Referential integrity of a store (the spec invariant of C4). -/
def empInv (s : Store) : Prop :=
  empsOk s.positions s.employees

instance (s : Store) : Decidable (empInv s) :=
  List.decidableBAll _ s.employees

/-- Non-emptiness of all stored position names. -/
def posNE (s : Store) : Prop :=
  ∀ p ∈ s.positions, p.name ≠ ""

/-- The spec invariant of C3 on position names: non-empty, trimmed, and unique
up to case. -/
def namesOk (s : Store) : Prop :=
  (∀ nm ∈ s.positions.map Position.name, nm ≠ "" ∧ pyStrip nm = nm) ∧
  ((s.positions.map Position.name).map pyLower).Nodup

instance (s : Store) : Decidable (namesOk s) := by
  unfold namesOk
  infer_instance

instance (s : Store) : Decidable (posNE s) :=
  List.decidableBAll _ s.positions

end Personnel

namespace Personnel

/-- Rounding a rational that is an integer returns that integer. -/
theorem roundHalfEven_intCast (n : Int) : roundHalfEven ((n : Rat)) = n := by
  have h0 : ((n : Rat)) - (⌊(n : Rat)⌋ : Rat) = 0 := by
    rw [Int.floor_intCast]; ring
  simp [roundHalfEven, h0]

/-- C7: for every gross amount, net(gross) equals gross times (1 - 0.195) rounded
to 2 decimal places (18 percent income tax plus 1.5 percent levy, additive); in
particular net(50000) = 40250. -/
theorem calculate_net_spec_C7 :
    (∀ g : Rat, calculate_net g = pyRound2 (g * (1 - 195 / 1000))) ∧
    calculate_net 50000 = 40250 := by
  have h : PDFO_RATE + MILITARY_TAX = 195 / 1000 := by
    norm_num [PDFO_RATE, MILITARY_TAX]
  constructor
  · intro g
    simp only [calculate_net, h]
  · simp only [calculate_net, pyRound2, h]
    rw [show (50000 : Rat) * (1 - 195 / 1000) * 100 = ((4025000 : Int) : Rat) by norm_num,
      roundHalfEven_intCast]
    norm_num

/-- C9: Employee construction succeeds exactly when both names satisfy the
predicate (all characters alphabetic and first character uppercase) and the
hire date is not strictly after today; names with internal whitespace, digits,
or a lowercase first letter are rejected; add_employee fails the same way and
succeeds whenever the checks pass and the position exists. -/
theorem employee_validation_C9 (first last pid id : String) (hd today : Date)
    (s : Store) :
    (exceptOk (mkEmployee first last pid hd today id) =
      (validate_name first && validate_name last && Date.le hd today)) ∧
    (validate_name "An na" = false ∧ validate_name "Anna1" = false ∧
      validate_name "anna" = false) ∧
    ((validate_name first && validate_name last) = false →
      add_employee s first last pid hd today = (s, some Err.invalidName)) ∧
    ((validate_name first && validate_name last) = true → Date.le hd today = false →
      add_employee s first last pid hd today = (s, some Err.futureHireDate)) ∧
    ((validate_name first && validate_name last && Date.le hd today) = true →
      s.positions.any (fun p => p.id == pid) = true →
      (add_employee s first last pid hd today).2 = none) := by
  refine ⟨?_, by decide, ?_, ?_, ?_⟩
  · cases hf : validate_name first <;> cases hl : validate_name last <;>
      cases ht : Date.le hd today <;> simp [mkEmployee, exceptOk, hf, hl, ht]
  · intro h
    have hc : (!(validate_name first) || !(validate_name last)) = true := by
      cases hf : validate_name first <;> cases hl : validate_name last <;> simp_all
    simp [add_employee, hc]
  · intro h ht
    have hc : (!(validate_name first) || !(validate_name last)) = false := by
      cases hf : validate_name first <;> cases hl : validate_name last <;> simp_all
    simp [add_employee, hc, ht]
  · intro h hp
    obtain ⟨hf, hl, ht⟩ : validate_name first = true ∧ validate_name last = true ∧
        Date.le hd today = true := by
      cases hf : validate_name first <;> cases hl : validate_name last <;>
        cases ht : Date.le hd today <;> simp_all
    simp [add_employee, mkEmployee, hf, hl, ht, hp]

/-- Witness for C9: the spec scenarios, a lowercase first name and a hire date
after today each fail, and a fully valid call succeeds. -/
theorem employee_validation_C9_witness :
    ((validate_name "anna" && validate_name "Kovalenko") = false ∧
      add_employee ⟨[⟨"p1", "Dev", 1, 0⟩], [], ([], []), 0⟩ "anna" "Kovalenko" "p1"
        ⟨2020, 1, 1⟩ ⟨2026, 1, 1⟩ =
        (⟨[⟨"p1", "Dev", 1, 0⟩], [], ([], []), 0⟩, some Err.invalidName)) ∧
    ((validate_name "Anna" && validate_name "Kovalenko") = true ∧
      Date.le ⟨2027, 1, 1⟩ ⟨2026, 1, 1⟩ = false ∧
      add_employee ⟨[⟨"p1", "Dev", 1, 0⟩], [], ([], []), 0⟩ "Anna" "Kovalenko" "p1"
        ⟨2027, 1, 1⟩ ⟨2026, 1, 1⟩ =
        (⟨[⟨"p1", "Dev", 1, 0⟩], [], ([], []), 0⟩, some Err.futureHireDate)) ∧
    ((validate_name "Anna" && validate_name "Kovalenko" &&
        Date.le ⟨2020, 1, 1⟩ ⟨2026, 1, 1⟩) = true ∧
      (⟨[⟨"p1", "Dev", 1, 0⟩], [], ([], []), 0⟩ : Store).positions.any
        (fun p => p.id == "p1") = true ∧
      (add_employee ⟨[⟨"p1", "Dev", 1, 0⟩], [], ([], []), 0⟩ "Anna" "Kovalenko" "p1"
        ⟨2020, 1, 1⟩ ⟨2026, 1, 1⟩).2 = none) :=
  ⟨⟨by decide,
    (employee_validation_C9 "anna" "Kovalenko" "p1" "x" ⟨2020, 1, 1⟩ ⟨2026, 1, 1⟩
      ⟨[⟨"p1", "Dev", 1, 0⟩], [], ([], []), 0⟩).2.2.1 (by decide)⟩,
   ⟨by decide, by decide,
    (employee_validation_C9 "Anna" "Kovalenko" "p1" "x" ⟨2027, 1, 1⟩ ⟨2026, 1, 1⟩
      ⟨[⟨"p1", "Dev", 1, 0⟩], [], ([], []), 0⟩).2.2.2.1 (by decide) (by decide)⟩,
   ⟨by decide, by decide,
    (employee_validation_C9 "Anna" "Kovalenko" "p1" "x" ⟨2020, 1, 1⟩ ⟨2026, 1, 1⟩
      ⟨[⟨"p1", "Dev", 1, 0⟩], [], ([], []), 0⟩).2.2.2.2 (by decide) (by decide)⟩⟩

/-- C1 counterexample: on a store with one employee named Anna, an
update_employee call supplying a valid new first name and an invalid new last
name fails with the last-name error, yet the first name has been mutated to the
new value, so not every field of the employee equals its value before the
call. -/
theorem update_employee_partial_mutation_cx :
    (update_employee
        ⟨[⟨"p1", "Dev", 1, 0⟩], [⟨"e1", "Anna", "Kovalenko", "p1", ⟨2020, 1, 1⟩⟩],
          ([], []), 0⟩
        "e1" ⟨some "Bob", some "xx", none, none⟩ ⟨2026, 1, 1⟩).2 =
      some Err.invalidLastName ∧
    (update_employee
        ⟨[⟨"p1", "Dev", 1, 0⟩], [⟨"e1", "Anna", "Kovalenko", "p1", ⟨2020, 1, 1⟩⟩],
          ([], []), 0⟩
        "e1" ⟨some "Bob", some "xx", none, none⟩ ⟨2026, 1, 1⟩).1.employees.map
        Employee.first_name = ["Bob"] ∧
    validate_name "Bob" = true ∧ ("Bob" : String) ≠ "Anna" := by
  decide

theorem andThen_none (s : Store) (f : Store → Store × Option Err) :
    andThen (s, none) f = f s := rfl

theorem andThen_some (s : Store) (e : Err) (f : Store → Store × Option Err) :
    andThen (s, some e) f = (s, some e) := rfl

/-- Behaviour of the hire-date tail of the update_employee chain. -/
theorem chainDate (s0 s1 : Store) (emp_id : String) (p : EmpPatch) (today : Date)
    (hsav : s1.saved = s0.saved) :
    (andThen (eStepDate emp_id p today s1) (fun s4 => (save_data s4, none))).2 =
      (if p.hire_date.any (fun d => !(Date.le d today)) then some Err.futureHireDate
       else none) ∧
    ((andThen (eStepDate emp_id p today s1) (fun s4 => (save_data s4, none))).2.isSome →
      (andThen (eStepDate emp_id p today s1) (fun s4 => (save_data s4, none))).1.saved =
        s0.saved) := by
  cases hhd : p.hire_date with
  | none => simp [eStepDate, hhd, andThen_none, save_data]
  | some d =>
    cases hv : Date.le d today with
    | true => simp [eStepDate, hhd, hv, andThen_none, save_data]
    | false => simp [eStepDate, hhd, hv, andThen_some, hsav]

/-- Behaviour of the position-and-date tail of the update_employee chain. -/
theorem chainPos (s0 s1 : Store) (emp_id : String) (p : EmpPatch) (today : Date)
    (hpos : s1.positions = s0.positions) (hsav : s1.saved = s0.saved) :
    (andThen (eStepPos emp_id p s1) (fun s3 =>
       andThen (eStepDate emp_id p today s3) (fun s4 => (save_data s4, none)))).2 =
      (if p.position_id.any (fun pid => !(s0.positions.any (fun q => q.id == pid))) then
        some Err.positionNotFound
       else if p.hire_date.any (fun d => !(Date.le d today)) then some Err.futureHireDate
       else none) ∧
    ((andThen (eStepPos emp_id p s1) (fun s3 =>
       andThen (eStepDate emp_id p today s3) (fun s4 => (save_data s4, none)))).2.isSome →
      (andThen (eStepPos emp_id p s1) (fun s3 =>
       andThen (eStepDate emp_id p today s3) (fun s4 => (save_data s4, none)))).1.saved =
        s0.saved) := by
  cases hpi : p.position_id with
  | none =>
    simp only [eStepPos, hpi, andThen_none, Option.any_none, Bool.false_eq_true, if_false]
    exact chainDate s0 s1 emp_id p today hsav
  | some pid =>
    cases hc : s1.positions.any (fun q => q.id == pid) with
    | false =>
      rw [hpos] at hc
      simp [eStepPos, hpi, hpos, hc, andThen_some, hsav]
    | true =>
      have hc0 : s0.positions.any (fun q => q.id == pid) = true := by
        rw [← hpos]; exact hc
      simp only [eStepPos, hpi, hpos, hc, if_true, andThen_none, Option.any_some, hc0,
        Bool.not_true, Bool.false_eq_true, if_false]
      exact chainDate s0 _ emp_id p today hsav

/-- Behaviour of the last-name, position and date tail of the update_employee
chain. -/
theorem chainLast (s0 s1 : Store) (emp_id : String) (p : EmpPatch) (today : Date)
    (hpos : s1.positions = s0.positions) (hsav : s1.saved = s0.saved) :
    (andThen (eStepLast emp_id p s1) (fun s2 =>
       andThen (eStepPos emp_id p s2) (fun s3 =>
         andThen (eStepDate emp_id p today s3) (fun s4 => (save_data s4, none))))).2 =
      (if p.last_name.any (fun n => !(validate_name n)) then some Err.invalidLastName
       else if p.position_id.any (fun pid => !(s0.positions.any (fun q => q.id == pid))) then
        some Err.positionNotFound
       else if p.hire_date.any (fun d => !(Date.le d today)) then some Err.futureHireDate
       else none) ∧
    ((andThen (eStepLast emp_id p s1) (fun s2 =>
       andThen (eStepPos emp_id p s2) (fun s3 =>
         andThen (eStepDate emp_id p today s3) (fun s4 => (save_data s4, none))))).2.isSome →
      (andThen (eStepLast emp_id p s1) (fun s2 =>
       andThen (eStepPos emp_id p s2) (fun s3 =>
         andThen (eStepDate emp_id p today s3) (fun s4 => (save_data s4, none))))).1.saved =
        s0.saved) := by
  cases hl : p.last_name with
  | none =>
    simp only [eStepLast, hl, andThen_none, Option.any_none, Bool.false_eq_true, if_false]
    exact chainPos s0 s1 emp_id p today hpos hsav
  | some n =>
    cases hv : validate_name n with
    | false => simp [eStepLast, hl, hv, andThen_some, hsav]
    | true =>
      simp only [eStepLast, hl, hv, if_true, andThen_none, Option.any_some,
        Bool.not_true, Bool.false_eq_true, if_false]
      exact chainPos s0 _ emp_id p today hpos hsav

/-- C1 amended: for a stored employee id, update_employee fails with the error
of the first invalid supplied field, in the processing order of the source
(first_name, last_name, position_id, hire_date), and on failure nothing is
persisted (the saved snapshot is unchanged); supplied valid fields processed
before the failing one remain applied to the in-memory employee, as the
counterexample shows. -/
theorem update_employee_first_error (s : Store) (emp_id : String) (p : EmpPatch)
    (today : Date) (hmem : s.employees.any (fun e => e.id == emp_id) = true) :
    (update_employee s emp_id p today).2 = firstErr s p today ∧
    ((firstErr s p today).isSome →
      (update_employee s emp_id p today).1.saved = s.saved) := by
  have hkey : (update_employee s emp_id p today).2 = firstErr s p today ∧
      ((update_employee s emp_id p today).2.isSome →
        (update_employee s emp_id p today).1.saved = s.saved) := by
    rw [update_employee, if_pos hmem]
    cases hf : p.first_name with
    | none =>
      rw [firstErr]
      simp only [eStepFirst, hf, andThen_none, Option.any_none, Bool.false_eq_true,
        if_false]
      exact chainLast s s emp_id p today rfl rfl
    | some n =>
      cases hv : validate_name n with
      | false => simp [eStepFirst, hf, hv, andThen_some, firstErr]
      | true =>
        rw [firstErr]
        simp only [eStepFirst, hf, hv, if_true, andThen_none, Option.any_some,
          Bool.not_true, Bool.false_eq_true, if_false]
        exact chainLast s _ emp_id p today rfl rfl
  exact ⟨hkey.1, fun h => hkey.2 (by rw [hkey.1]; exact h)⟩

/-- Witness for C1 amended at a concrete store and patch. -/
theorem update_employee_first_error_witness :
    (⟨[⟨"p1", "Dev", 1, 0⟩], [⟨"e1", "Anna", "Kovalenko", "p1", ⟨2020, 1, 1⟩⟩],
        ([], []), 0⟩ : Store).employees.any (fun e => e.id == "e1") = true ∧
    ((update_employee
        ⟨[⟨"p1", "Dev", 1, 0⟩], [⟨"e1", "Anna", "Kovalenko", "p1", ⟨2020, 1, 1⟩⟩],
          ([], []), 0⟩ "e1" ⟨none, some "xx", none, none⟩ ⟨2026, 1, 1⟩).2 =
      firstErr
        ⟨[⟨"p1", "Dev", 1, 0⟩], [⟨"e1", "Anna", "Kovalenko", "p1", ⟨2020, 1, 1⟩⟩],
          ([], []), 0⟩ ⟨none, some "xx", none, none⟩ ⟨2026, 1, 1⟩ ∧
    ((firstErr
        ⟨[⟨"p1", "Dev", 1, 0⟩], [⟨"e1", "Anna", "Kovalenko", "p1", ⟨2020, 1, 1⟩⟩],
          ([], []), 0⟩ ⟨none, some "xx", none, none⟩ ⟨2026, 1, 1⟩).isSome →
      (update_employee
        ⟨[⟨"p1", "Dev", 1, 0⟩], [⟨"e1", "Anna", "Kovalenko", "p1", ⟨2020, 1, 1⟩⟩],
          ([], []), 0⟩ "e1" ⟨none, some "xx", none, none⟩ ⟨2026, 1, 1⟩).1.saved =
        (⟨[⟨"p1", "Dev", 1, 0⟩], [⟨"e1", "Anna", "Kovalenko", "p1", ⟨2020, 1, 1⟩⟩],
          ([], []), 0⟩ : Store).saved)) :=
  ⟨by decide, update_employee_first_error _ "e1" _ _ (by decide)⟩

/-- Behaviour of the access-level and salary tail of the update_position chain. -/
theorem pChainLevel (s0 s1 : Store) (pos_id : String) (lvl? : Option Int)
    (sal? : Option Rat) (hsav : s1.saved = s0.saved) :
    (andThen (pStepLevel pos_id lvl? s1) (fun s2 =>
       (save_data (pStepSalary pos_id sal? s2), none))).2 =
      (if lvl?.any (fun a => !(ALLOWED_ACCESS_LEVELS.contains a)) then
        some Err.badAccessLevel
       else none) ∧
    ((andThen (pStepLevel pos_id lvl? s1) (fun s2 =>
       (save_data (pStepSalary pos_id sal? s2), none))).2.isSome →
      (andThen (pStepLevel pos_id lvl? s1) (fun s2 =>
       (save_data (pStepSalary pos_id sal? s2), none))).1.saved = s0.saved) := by
  cases hl : lvl? with
  | none => simp [pStepLevel, andThen_none]
  | some a =>
    cases hc : ALLOWED_ACCESS_LEVELS.contains a with
    | true =>
      have hm : a ∈ ALLOWED_ACCESS_LEVELS := by simpa using hc
      simp [pStepLevel, hc, hm, andThen_none]
    | false =>
      have hm : a ∉ ALLOWED_ACCESS_LEVELS := by simpa using hc
      simp [pStepLevel, hc, hm, andThen_some, hsav]

/-- C2: each supplied field of update_position is validated (name uniqueness
excluding the position itself, on non-empty supplied names; access-level
membership); a supplied invalid field fails the whole call, and on any failure
nothing is persisted: the saved snapshot equals its value before the call. -/
theorem update_position_validation_C2 (s : Store) (pos_id : String)
    (name? : Option String) (lvl? : Option Int) (sal? : Option Rat) :
    ((update_position s pos_id name? lvl? sal?).2.isSome →
      (update_position s pos_id name? lvl? sal?).1.saved = s.saved) ∧
    (s.positions.any (fun p => p.id == pos_id) = true →
      (∀ n, name? = some n → n ≠ "" →
        s.positions.any (fun q => pyLower q.name == pyLower n && q.id != pos_id) = true →
        (update_position s pos_id name? lvl? sal?).2 = some Err.duplicateName) ∧
      (∀ a, lvl? = some a → ALLOWED_ACCESS_LEVELS.contains a = false →
        (update_position s pos_id name? lvl? sal?).2.isSome = true)) := by
  cases hmem : s.positions.any (fun p => p.id == pos_id) with
  | false =>
    rw [update_position]
    simp [hmem]
  | true =>
    rw [update_position, if_pos hmem]
    cases hn : name? with
    | none =>
      have h := pChainLevel s s pos_id lvl? sal? rfl
      rw [show pStepName pos_id none s = (s, none) from rfl, andThen_none]
      refine ⟨h.2, fun _ => ⟨by simp, fun a ha hc => ?_⟩⟩
      have hm : a ∉ ALLOWED_ACCESS_LEVELS := by simpa using hc
      rw [h.1, ha]
      simp [hm]
    | some n =>
      cases hne : n == "" with
      | true =>
        have hn0 : n = "" := by simpa using hne
        subst hn0
        have h := pChainLevel s s pos_id lvl? sal? rfl
        have hstep : pStepName pos_id (some "") s = (s, none) := by
          simp [pStepName]
        rw [hstep, andThen_none]
        refine ⟨h.2, fun _ =>
          ⟨fun m hm hm2 => absurd (Option.some.inj hm).symm hm2, fun a ha hc => ?_⟩⟩
        have hm : a ∉ ALLOWED_ACCESS_LEVELS := by simpa using hc
        rw [h.1, ha]
        simp [hm]
      | false =>
        have hne2 : (n != "") = true := by simp [bne, hne]
        cases hdup : s.positions.any (fun q => pyLower q.name == pyLower n && q.id != pos_id) with
        | true =>
          have hstep : pStepName pos_id (some n) s = (s, some Err.duplicateName) := by
            simp only [pStepName]
            rw [if_pos hne2, if_pos hdup]
          rw [hstep, andThen_some]
          exact ⟨fun _ => rfl, fun _ => ⟨fun m hm hm2 hm3 => rfl, fun a ha hc => rfl⟩⟩
        | false =>
          have hstep : pStepName pos_id (some n) s =
              (mapPos s pos_id fun q => { q with name := n }, none) := by
            simp only [pStepName]
            rw [if_pos hne2, if_neg (by simp [hdup])]
          rw [hstep, andThen_none]
          have h := pChainLevel s (mapPos s pos_id fun q => { q with name := n })
            pos_id lvl? sal? rfl
          refine ⟨h.2, fun _ => ⟨fun m hm hm2 hm3 => ?_, fun a ha hc => ?_⟩⟩
          · have hmn : m = n := (Option.some.inj hm).symm
            rw [hmn] at hm3
            exact absurd hm3 (by simp [hdup])
          · have hm : a ∉ ALLOWED_ACCESS_LEVELS := by simpa using hc
            rw [h.1, ha]
            simp [hm]


/-- Witness for C2 at a concrete store: renaming p2 to the existing name Dev
with an invalid access level fails and persists nothing. -/
theorem update_position_validation_C2_witness :
    (update_position
        ⟨[⟨"p1", "Dev", 1, 0⟩, ⟨"p2", "QA", 1, 0⟩], [], ([], []), 0⟩
        "p2" (some "Dev") (some 9) none).2 = some Err.duplicateName ∧
    (update_position
        ⟨[⟨"p1", "Dev", 1, 0⟩, ⟨"p2", "QA", 1, 0⟩], [], ([], []), 0⟩
        "p2" (some "Dev") (some 9) none).1.saved =
      (⟨[⟨"p1", "Dev", 1, 0⟩, ⟨"p2", "QA", 1, 0⟩], [], ([], []), 0⟩ : Store).saved :=
  ⟨((update_position_validation_C2
      ⟨[⟨"p1", "Dev", 1, 0⟩, ⟨"p2", "QA", 1, 0⟩], [], ([], []), 0⟩
      "p2" (some "Dev") (some 9) none).2 (by decide)).1 "Dev" rfl (by decide) (by decide),
   (update_position_validation_C2
      ⟨[⟨"p1", "Dev", 1, 0⟩, ⟨"p2", "QA", 1, 0⟩], [], ([], []), 0⟩
      "p2" (some "Dev") (some 9) none).1 (by decide)⟩

end Personnel

namespace Personnel

theorem mem_dictInsert {ps : List Position} {p x : Position}
    (h : x ∈ dictInsert ps p) : x ∈ ps ∨ x = p := by
  rw [dictInsert] at h
  split at h
  · obtain ⟨q, hq, hqx⟩ := List.mem_map.mp h
    by_cases hid : (q.id == p.id) = true
    · simp only [hid, if_true] at hqx
      exact Or.inr hqx.symm
    · simp only [hid, if_false] at hqx
      exact Or.inl (hqx ▸ hq)
  · rcases List.mem_append.mp h with h1 | h2
    · exact Or.inl h1
    · simp only [List.mem_singleton] at h2
      exact Or.inr h2

theorem dictInsert_ids {ps : List Position} (p : Position) {x : String}
    (h : x ∈ ps.map Position.id) : x ∈ (dictInsert ps p).map Position.id := by
  rw [dictInsert]
  split
  · obtain ⟨q, hq, rfl⟩ := List.mem_map.mp h
    apply List.mem_map.mpr
    refine ⟨if q.id == p.id then p else q, List.mem_map_of_mem _ hq, ?_⟩
    by_cases hb : (q.id == p.id) = true
    · simp only [hb, if_true]
      exact (eq_of_beq hb).symm
    · simp [hb]
  · exact List.mem_map.mpr (by
      obtain ⟨q, hq, rfl⟩ := List.mem_map.mp h
      exact ⟨q, List.mem_append_left _ hq, rfl⟩)

theorem dictInsert_self_id (ps : List Position) (p : Position) :
    p.id ∈ (dictInsert ps p).map Position.id := by
  rw [dictInsert]
  split
  · rename_i hall
    obtain ⟨q, hq, hqb⟩ := List.any_eq_true.mp hall
    apply List.mem_map.mpr
    refine ⟨if q.id == p.id then p else q, List.mem_map_of_mem _ hq, ?_⟩
    simp only [hqb, if_true]
  · exact List.mem_map.mpr ⟨p, List.mem_append_right _ (List.mem_singleton.mpr rfl), rfl⟩

theorem mem_updFirst {es : List Employee} {emp_id : String} {f : Employee → Employee}
    {x : Employee} (h : x ∈ updFirst es emp_id f) :
    x ∈ es ∨ ∃ e ∈ es, x = f e := by
  induction es with
  | nil => simp [updFirst] at h
  | cons e rest ih =>
    rw [updFirst] at h
    split at h
    · rcases List.mem_cons.mp h with h1 | h2
      · exact Or.inr ⟨e, List.mem_cons_self _ _, h1⟩
      · exact Or.inl (List.mem_cons_of_mem _ h2)
    · rcases List.mem_cons.mp h with h1 | h2
      · exact Or.inl (h1 ▸ List.mem_cons_self _ _)
      · rcases ih h2 with h3 | ⟨e2, he2, hx⟩
        · exact Or.inl (List.mem_cons_of_mem _ h3)
        · exact Or.inr ⟨e2, List.mem_cons_of_mem _ he2, hx⟩

end Personnel

namespace Personnel

theorem andThen_inv (P : List Position) (r : Store × Option Err)
    (f : Store → Store × Option Err)
    (hr : r.1.positions = P ∧ empsOk P r.1.employees)
    (hf : ∀ t, t.positions = P → empsOk P t.employees →
      ((f t).1.positions = P ∧ empsOk P (f t).1.employees)) :
    (andThen r f).1.positions = P ∧ empsOk P (andThen r f).1.employees := by
  obtain ⟨a, b⟩ := r
  cases b with
  | none => exact hf a hr.1 hr.2
  | some e => exact hr

theorem empsOk_updFirst {P : List Position} {es : List Employee} {emp_id : String}
    {f : Employee → Employee} (h : empsOk P es)
    (hf : ∀ e ∈ es, (f e).position_id ∈ P.map Position.id) :
    empsOk P (updFirst es emp_id f) := by
  intro x hx
  rcases mem_updFirst hx with h1 | ⟨e, he, rfl⟩
  · exact h x h1
  · exact hf e he

theorem eStepFirst_inv (P : List Position) (emp_id : String) (p : EmpPatch)
    (t : Store) (hp : t.positions = P) (he : empsOk P t.employees) :
    (eStepFirst emp_id p t).1.positions = P ∧
      empsOk P (eStepFirst emp_id p t).1.employees := by
  cases hfn : p.first_name with
  | none => simp only [eStepFirst, hfn]; exact ⟨hp, he⟩
  | some n =>
    simp only [eStepFirst, hfn]
    split
    · exact ⟨hp, empsOk_updFirst he (fun e hee => he e hee)⟩
    · exact ⟨hp, he⟩

theorem eStepLast_inv (P : List Position) (emp_id : String) (p : EmpPatch)
    (t : Store) (hp : t.positions = P) (he : empsOk P t.employees) :
    (eStepLast emp_id p t).1.positions = P ∧
      empsOk P (eStepLast emp_id p t).1.employees := by
  cases hfn : p.last_name with
  | none => simp only [eStepLast, hfn]; exact ⟨hp, he⟩
  | some n =>
    simp only [eStepLast, hfn]
    split
    · exact ⟨hp, empsOk_updFirst he (fun e hee => he e hee)⟩
    · exact ⟨hp, he⟩

theorem eStepPos_inv (P : List Position) (emp_id : String) (p : EmpPatch)
    (t : Store) (hp : t.positions = P) (he : empsOk P t.employees) :
    (eStepPos emp_id p t).1.positions = P ∧
      empsOk P (eStepPos emp_id p t).1.employees := by
  cases hfn : p.position_id with
  | none => simp only [eStepPos, hfn]; exact ⟨hp, he⟩
  | some pid =>
    simp only [eStepPos, hfn]
    cases hc : t.positions.any (fun q => q.id == pid) with
    | false => simp only [hc, Bool.false_eq_true, if_false]; exact ⟨hp, he⟩
    | true =>
      simp only [hc, if_true]

      refine ⟨hp, empsOk_updFirst he (fun e hee => ?_)⟩
      obtain ⟨q, hq, hqb⟩ := List.any_eq_true.mp hc
      rw [← hp]
      exact (eq_of_beq hqb) ▸ List.mem_map_of_mem _ hq
  -- the updated employee gets the checked position id

theorem eStepDate_inv (P : List Position) (emp_id : String) (p : EmpPatch)
    (today : Date) (t : Store) (hp : t.positions = P) (he : empsOk P t.employees) :
    (eStepDate emp_id p today t).1.positions = P ∧
      empsOk P (eStepDate emp_id p today t).1.employees := by
  cases hfn : p.hire_date with
  | none => simp only [eStepDate, hfn]; exact ⟨hp, he⟩
  | some d =>
    simp only [eStepDate, hfn]
    split
    · exact ⟨hp, empsOk_updFirst he (fun e hee => he e hee)⟩
    · exact ⟨hp, he⟩

theorem update_employee_inv (s : Store) (emp_id : String) (p : EmpPatch)
    (today : Date) (h : empInv s) : empInv (update_employee s emp_id p today).1 := by
  rw [update_employee]
  split
  · have hres := andThen_inv s.positions (eStepFirst emp_id p s)
      (fun s1 => andThen (eStepLast emp_id p s1) (fun s2 =>
        andThen (eStepPos emp_id p s2) (fun s3 =>
          andThen (eStepDate emp_id p today s3) (fun s4 => (save_data s4, none)))))
      (eStepFirst_inv s.positions emp_id p s rfl h)
      (fun t1 hp1 he1 =>
        andThen_inv s.positions (eStepLast emp_id p t1)
          (fun s2 => andThen (eStepPos emp_id p s2) (fun s3 =>
            andThen (eStepDate emp_id p today s3) (fun s4 => (save_data s4, none))))
          (eStepLast_inv s.positions emp_id p t1 hp1 he1)
          (fun t2 hp2 he2 =>
            andThen_inv s.positions (eStepPos emp_id p t2)
              (fun s3 => andThen (eStepDate emp_id p today s3)
                (fun s4 => (save_data s4, none)))
              (eStepPos_inv s.positions emp_id p t2 hp2 he2)
              (fun t3 hp3 he3 =>
                andThen_inv s.positions (eStepDate emp_id p today t3)
                  (fun s4 => (save_data s4, none))
                  (eStepDate_inv s.positions emp_id p today t3 hp3 he3)
                  (fun t4 hp4 he4 => ⟨hp4, he4⟩))))
    rw [empInv, hres.1]
    exact hres.2
  · exact h

end Personnel

namespace Personnel

theorem andThen_pred (G : Store → Prop) (r : Store × Option Err)
    (f : Store → Store × Option Err) (hr : G r.1) (hf : ∀ t, G t → G (f t).1) :
    G (andThen r f).1 := by
  obtain ⟨a, b⟩ := r
  cases b with
  | none => exact hf a hr
  | some e => exact hr

theorem mapPos_ids (s : Store) (pos_id : String) (f : Position → Position)
    (hf : ∀ q, (f q).id = q.id) :
    (mapPos s pos_id f).positions.map Position.id = s.positions.map Position.id := by
  rw [mapPos]
  simp only [List.map_map]
  apply List.map_congr_left
  intro q _
  simp only [Function.comp_apply]
  by_cases hb : (q.id == pos_id) = true
  · rw [if_pos hb, hf]
  · rw [if_neg hb]

theorem add_position_inv (s : Store) (n : String) (a : Int) (sal : Rat)
    (h : empInv s) : empInv (add_position s n a sal).1 := by
  rw [add_position]
  split
  · exact h
  · split
    · exact h
    · intro e he
      exact dictInsert_ids _ (h e he)

theorem pStepName_shape (pos_id : String) (name? : Option String) (s : Store) :
    (pStepName pos_id name? s).1.positions.map Position.id =
      s.positions.map Position.id ∧
    (pStepName pos_id name? s).1.employees = s.employees := by
  cases name? with
  | none => exact ⟨rfl, rfl⟩
  | some n =>
    simp only [pStepName]
    split
    · split
      · exact ⟨rfl, rfl⟩
      · exact ⟨mapPos_ids s pos_id (fun q => { q with name := n }) (fun q => rfl), rfl⟩
    · exact ⟨rfl, rfl⟩

theorem pStepLevel_shape (pos_id : String) (lvl? : Option Int) (s : Store) :
    (pStepLevel pos_id lvl? s).1.positions.map Position.id =
      s.positions.map Position.id ∧
    (pStepLevel pos_id lvl? s).1.employees = s.employees := by
  cases lvl? with
  | none => exact ⟨rfl, rfl⟩
  | some a =>
    simp only [pStepLevel]
    split
    · exact ⟨mapPos_ids s pos_id (fun q => { q with access_level := a })
        (fun q => rfl), rfl⟩
    · exact ⟨rfl, rfl⟩

theorem pStepSalary_shape (pos_id : String) (sal? : Option Rat) (s : Store) :
    (pStepSalary pos_id sal? s).positions.map Position.id =
      s.positions.map Position.id ∧
    (pStepSalary pos_id sal? s).employees = s.employees := by
  cases sal? with
  | none => exact ⟨rfl, rfl⟩
  | some v =>
    exact ⟨mapPos_ids s pos_id (fun q => { q with salary := v }) (fun q => rfl), rfl⟩

theorem update_position_inv (s : Store) (pos_id : String) (name? : Option String)
    (lvl? : Option Int) (sal? : Option Rat) (h : empInv s) :
    empInv (update_position s pos_id name? lvl? sal?).1 := by
  rw [update_position]
  split
  · have hres := andThen_pred
      (fun t => t.positions.map Position.id = s.positions.map Position.id ∧
        t.employees = s.employees)
      (pStepName pos_id name? s)
      (fun s1 => andThen (pStepLevel pos_id lvl? s1) (fun s2 =>
        (save_data (pStepSalary pos_id sal? s2), none)))
      ⟨(pStepName_shape pos_id name? s).1, (pStepName_shape pos_id name? s).2⟩
      (fun t1 ht1 =>
        andThen_pred
          (fun t => t.positions.map Position.id = s.positions.map Position.id ∧
            t.employees = s.employees)
          (pStepLevel pos_id lvl? t1)
          (fun s2 => (save_data (pStepSalary pos_id sal? s2), none))
          ⟨(pStepLevel_shape pos_id lvl? t1).1.trans ht1.1,
            (pStepLevel_shape pos_id lvl? t1).2.trans ht1.2⟩
          (fun t2 ht2 =>
            ⟨(pStepSalary_shape pos_id sal? t2).1.trans ht2.1,
              (pStepSalary_shape pos_id sal? t2).2.trans ht2.2⟩))
    intro e he
    rw [empInv] at h
    rw [hres.1]
    exact h e (hres.2 ▸ he)
  · exact h

theorem delete_position_inv (s : Store) (pos_id : String) (h : empInv s) :
    empInv (delete_position s pos_id).1 := by
  rw [delete_position]
  split
  · exact h
  · split
    · exact h
    · rename_i href _
      intro e he
      have hne : e.position_id ≠ pos_id := by
        intro hcontra
        apply href
        exact List.any_eq_true.mpr ⟨e, he, by simp [hcontra]⟩
      obtain ⟨q, hq, hqe⟩ := List.mem_map.mp (h e he)
      apply List.mem_map.mpr
      refine ⟨q, List.mem_filter.mpr ⟨hq, ?_⟩, hqe⟩
      simp [bne]
      intro hqq
      exact hne (hqe ▸ hqq ▸ rfl)

theorem mkEmployee_ok_pid {f l pid : String} {hd t : Date} {i : String}
    {emp : Employee} (h : mkEmployee f l pid hd t i = .ok emp) :
    emp.position_id = pid := by
  rw [mkEmployee] at h
  split at h
  · exact absurd h (by simp)
  · split at h
    · exact absurd h (by simp)
    · split at h
      · exact absurd h (by simp)
      · cases h
        rfl

theorem add_employee_inv (s : Store) (fn ln pid : String) (hdt today : Date)
    (h : empInv s) : empInv (add_employee s fn ln pid hdt today).1 := by
  rw [add_employee]
  split
  · exact h
  · split
    · exact h
    · split
      · exact h
      · rename_i hpid
        split
        · exact h
        · rename_i emp hemp
          intro e he
          rcases List.mem_append.mp he with h1 | h2
          · exact h e h1
          · simp only [List.mem_singleton] at h2
            subst h2
            rw [mkEmployee_ok_pid hemp]
            have hb : s.positions.any (fun p => p.id == pid) = true := by
              simpa using hpid
            obtain ⟨q, hq, hqb⟩ := List.any_eq_true.mp hb
            exact (eq_of_beq hqb) ▸ List.mem_map_of_mem _ hq

theorem delete_employee_inv (s : Store) (emp_id : String) (h : empInv s) :
    empInv (delete_employee s emp_id).1 := by
  rw [delete_employee]
  split
  · exact h
  · intro e he
    exact h e (List.mem_of_mem_filter he)

end Personnel

namespace Personnel

theorem loadPositions_shape (rs : List PRec) (s : Store) :
    (loadPositions rs s).1.employees = s.employees ∧
    ∀ x ∈ s.positions.map Position.id,
      x ∈ (loadPositions rs s).1.positions.map Position.id := by
  induction rs generalizing s with
  | nil => exact ⟨rfl, fun x hx => hx⟩
  | cons r rest ih =>
    cases hp : posFromDict r (natId s.ctr) with
    | error e =>
      constructor
      · simp only [loadPositions, hp]
      · simp only [loadPositions, hp]
        exact fun x hx => hx
    | ok p =>
      have := ih { s with positions := dictInsert s.positions p, ctr := s.ctr + 1 }
      constructor
      · simp only [loadPositions, hp]
        exact this.1
      · simp only [loadPositions, hp]
        exact fun x hx => this.2 x (dictInsert_ids p hx)

theorem empFromDict_ok_pid {r : ERec} {P : List Position} {today : Date}
    {fresh : String} {emp : Employee}
    (h : empFromDict r P today fresh = .ok (some emp)) :
    emp.position_id ∈ P.map Position.id := by
  rw [empFromDict] at h
  cases hp : parseDate (r.hire_date.getD "") with
  | none => rw [hp] at h; simp at h
  | some hd =>
    rw [hp] at h
    cases hf : r.position_id.bind (fun pid => P.find? (fun p => p.id == pid)) with
    | none => rw [hf] at h; simp at h
    | some pos =>
      rw [hf] at h
      cases hm : mkEmployee (r.first_name.getD "") (r.last_name.getD "") pos.id hd
          today (r.id.getD fresh) with
      | error e => simp [hm] at h
      | ok emp2 =>
        simp only [hm, Except.ok.injEq, Option.some.injEq] at h
        have hpos : pos ∈ P := by
          cases ho : r.position_id with
          | none => rw [ho] at hf; simp at hf
          | some pid =>
            rw [ho] at hf
            simp only [Option.bind_eq_bind, Option.some_bind] at hf
            exact List.mem_of_find?_eq_some hf
        have hpid : emp.position_id = pos.id := h ▸ mkEmployee_ok_pid hm
        exact hpid ▸ List.mem_map_of_mem _ hpos

theorem loadEmployees_inv (rs : List ERec) (today : Date) (s : Store)
    (h : empInv s) :
    empInv (loadEmployees rs today s).1 ∧
    (loadEmployees rs today s).1.positions = s.positions := by
  induction rs generalizing s with
  | nil => exact ⟨h, rfl⟩
  | cons r rest ih =>
    cases he : empFromDict r s.positions today (natId s.ctr) with
    | error e =>
      constructor
      · simp only [loadEmployees, he]
        exact h
      · simp only [loadEmployees, he]
    | ok o =>
      cases o with
      | none =>
        simp only [loadEmployees, he]
        exact ih s h
      | some emp =>
        simp only [loadEmployees, he]
        have hemp : emp.position_id ∈ s.positions.map Position.id :=
          empFromDict_ok_pid he
        have h2 : empInv { s with employees := s.employees ++ [emp], ctr := s.ctr + 1 } := by
          intro e hee
          rcases List.mem_append.mp hee with h1 | h2
          · exact h e h1
          · simp only [List.mem_singleton] at h2
            subst h2
            exact hemp
        exact ih _ h2

theorem load_data_inv (s : Store) (doc? : Option Doc) (today : Date)
    (h : empInv s) : empInv (load_data s doc? today).1 := by
  cases doc? with
  | none => exact h
  | some doc =>
    rw [load_data]
    cases hlp : loadPositions doc.positions s with
    | mk s1 e1 =>
      have hsh := loadPositions_shape doc.positions s
      rw [hlp] at hsh
      have h1 : empInv s1 := fun e hee => hsh.2 _ (h e (hsh.1 ▸ hee))
      cases e1 with
      | some e => exact h1
      | none => exact (loadEmployees_inv doc.employees today s1 h1).1

/-- C4: after every PersonnelManager operation (including the error paths and
load), every employee in the store references a position id present in the
position collection. -/
theorem referential_integrity_C4 (op : Op) (s : Store) (h : empInv s) :
    empInv (applyOp op s).1 := by
  cases op with
  | addPosition n a sal => exact add_position_inv s n a sal h
  | updatePosition pid n a sal => exact update_position_inv s pid n a sal h
  | deletePosition pid => exact delete_position_inv s pid h
  | addEmployee f l pid hd t => exact add_employee_inv s f l pid hd t h
  | updateEmployee eid p t => exact update_employee_inv s eid p t h
  | deleteEmployee eid => exact delete_employee_inv s eid h
  | load doc t => exact load_data_inv s doc t h

/-- Witness for C4 at a concrete store and operation. -/
theorem referential_integrity_C4_witness :
    empInv
      ⟨[⟨"p1", "Dev", 1, 0⟩], [⟨"e1", "Anna", "Kovalenko", "p1", ⟨2020, 1, 1⟩⟩],
        ([], []), 0⟩ ∧
    empInv (applyOp (Op.deletePosition "p1")
      ⟨[⟨"p1", "Dev", 1, 0⟩], [⟨"e1", "Anna", "Kovalenko", "p1", ⟨2020, 1, 1⟩⟩],
        ([], []), 0⟩).1 :=
  ⟨by decide, referential_integrity_C4 (Op.deletePosition "p1") _ (by decide)⟩

end Personnel

namespace Personnel

theorem mkPosition_ok_fields {n : String} {a : Int} {sal : Rat} {i : String}
    {p : Position} (h : mkPosition n a sal i = .ok p) :
    p.name = pyStrip n ∧ p.name ≠ "" ∧ p.id = i := by
  rw [mkPosition] at h
  split at h
  · exact absurd h (by simp)
  · split at h
    · exact absurd h (by simp)
    · rename_i hne _
      cases h
      refine ⟨rfl, ?_, rfl⟩
      simpa using hne

theorem mapPos_names (s : Store) (pos_id : String) (f : Position → Position)
    (hf : ∀ q, (f q).name = q.name) :
    (mapPos s pos_id f).positions.map Position.name =
      s.positions.map Position.name := by
  rw [mapPos]
  simp only [List.map_map]
  apply List.map_congr_left
  intro q _
  simp only [Function.comp_apply]
  by_cases hb : (q.id == pos_id) = true
  · rw [if_pos hb, hf]
  · rw [if_neg hb]

theorem namesOk_congr {s t : Store}
    (he : t.positions.map Position.name = s.positions.map Position.name)
    (h : namesOk s) : namesOk t := by
  constructor
  · rw [he]
    exact h.1
  · rw [he]
    exact h.2

theorem nodup_rename (ps : List Position) (pid v : String)
    (hids : (ps.map Position.id).Nodup)
    (hnd : (ps.map (fun q => pyLower q.name)).Nodup)
    (hno : ∀ q ∈ ps, q.id ≠ pid → pyLower q.name ≠ v) :
    (ps.map (fun q => if q.id == pid then v else pyLower q.name)).Nodup := by
  induction ps with
  | nil => exact List.nodup_nil
  | cons q rest ih =>
    simp only [List.map_cons, List.nodup_cons] at hids hnd ⊢
    by_cases hb : (q.id == pid) = true
    · have hqid : q.id = pid := eq_of_beq hb
      rw [if_pos hb]
      have hrest : ∀ r ∈ rest, r.id ≠ pid := by
        intro r hr hrp
        apply hids.1
        have : r.id = q.id := hrp.trans hqid.symm
        exact this ▸ List.mem_map_of_mem Position.id hr
      constructor
      · intro hv
        obtain ⟨r, hr, hrv⟩ := List.mem_map.mp hv
        rw [if_neg (by simpa using hrest r hr)] at hrv
        exact hno r (List.mem_cons_of_mem _ hr) (hrest r hr) hrv
      · have : rest.map (fun r => if r.id == pid then v else pyLower r.name) =
            rest.map (fun r => pyLower r.name) := by
          apply List.map_congr_left
          intro r hr
          rw [if_neg (by simpa using hrest r hr)]
        rw [this]
        exact hnd.2
    · rw [if_neg hb]
      have hqid : q.id ≠ pid := by simpa using hb
      constructor
      · intro hv
        obtain ⟨r, hr, hrv⟩ := List.mem_map.mp hv
        by_cases hrb : (r.id == pid) = true
        · rw [if_pos hrb] at hrv
          exact hno q (List.mem_cons_self _ _) hqid hrv.symm
        · rw [if_neg hrb] at hrv
          exact hnd.1 (hrv ▸ List.mem_map_of_mem _ hr)
      · exact ih hids.2 hnd.2 (fun r hr => hno r (List.mem_cons_of_mem _ hr))

end Personnel

namespace Personnel

theorem eStepFirst_positions (emp_id : String) (p : EmpPatch) (t : Store) :
    (eStepFirst emp_id p t).1.positions = t.positions := by
  cases hf : p.first_name with
  | none => simp only [eStepFirst, hf]
  | some n =>
    simp only [eStepFirst, hf]
    split <;> rfl

theorem eStepLast_positions (emp_id : String) (p : EmpPatch) (t : Store) :
    (eStepLast emp_id p t).1.positions = t.positions := by
  cases hf : p.last_name with
  | none => simp only [eStepLast, hf]
  | some n =>
    simp only [eStepLast, hf]
    split <;> rfl

theorem eStepPos_positions (emp_id : String) (p : EmpPatch) (t : Store) :
    (eStepPos emp_id p t).1.positions = t.positions := by
  cases hf : p.position_id with
  | none => simp only [eStepPos, hf]
  | some pid =>
    simp only [eStepPos, hf]
    split <;> rfl

theorem eStepDate_positions (emp_id : String) (p : EmpPatch) (today : Date)
    (t : Store) : (eStepDate emp_id p today t).1.positions = t.positions := by
  cases hf : p.hire_date with
  | none => simp only [eStepDate, hf]
  | some d =>
    simp only [eStepDate, hf]
    split <;> rfl

theorem update_employee_positions (s : Store) (emp_id : String) (p : EmpPatch)
    (today : Date) : (update_employee s emp_id p today).1.positions = s.positions := by
  rw [update_employee]
  split
  · exact andThen_pred (fun t => t.positions = s.positions) _ _
      (eStepFirst_positions emp_id p s)
      (fun t1 ht1 => andThen_pred (fun t => t.positions = s.positions) _ _
        ((eStepLast_positions emp_id p t1).trans ht1)
        (fun t2 ht2 => andThen_pred (fun t => t.positions = s.positions) _ _
          ((eStepPos_positions emp_id p t2).trans ht2)
          (fun t3 ht3 => andThen_pred (fun t => t.positions = s.positions) _ _
            ((eStepDate_positions emp_id p today t3).trans ht3)
            (fun t4 ht4 => ht4))))
  · rfl

theorem delete_employee_positions (s : Store) (emp_id : String) :
    (delete_employee s emp_id).1.positions = s.positions := by
  rw [delete_employee]
  split <;> rfl

theorem loadEmployees_positions (rs : List ERec) (today : Date) (s : Store) :
    (loadEmployees rs today s).1.positions = s.positions := by
  induction rs generalizing s with
  | nil => rfl
  | cons r rest ih =>
    cases he : empFromDict r s.positions today (natId s.ctr) with
    | error e => simp only [loadEmployees, he]
    | ok o =>
      cases o with
      | none =>
        simp only [loadEmployees, he]
        exact ih s
      | some emp =>
        simp only [loadEmployees, he]
        exact ih _

theorem loadPositions_posNE (rs : List PRec) (s : Store) (h : posNE s) :
    posNE (loadPositions rs s).1 := by
  induction rs generalizing s with
  | nil => exact h
  | cons r rest ih =>
    cases hp : posFromDict r (natId s.ctr) with
    | error e =>
      simp only [loadPositions, hp]
      exact h
    | ok p =>
      simp only [loadPositions, hp]
      apply ih
      intro x hx
      rcases mem_dictInsert hx with h1 | h2
      · exact h x h1
      · subst h2
        exact (mkPosition_ok_fields hp).2.1

end Personnel

namespace Personnel

theorem posNE_congr {s t : Store} (he : t.positions = s.positions) (h : posNE s) :
    posNE t := by
  intro x hx
  exact h x (he ▸ hx)

theorem posNE_mapPos (s : Store) (pos_id : String) (f : Position → Position)
    (h : posNE s) (hf : ∀ q ∈ s.positions, (f q).name ≠ "") :
    posNE (mapPos s pos_id f) := by
  intro x hx
  obtain ⟨q, hq, rfl⟩ := List.mem_map.mp hx
  by_cases hb : (q.id == pos_id) = true
  · rw [if_pos hb]
    exact hf q hq
  · rw [if_neg hb]
    exact h q hq

theorem add_position_posNE (s : Store) (n : String) (a : Int) (sal : Rat)
    (h : posNE s) : posNE (add_position s n a sal).1 := by
  rw [add_position]
  split
  · exact h
  · cases hm : mkPosition n a sal (natId s.ctr) with
    | error e =>
      simp only [hm]
      exact h
    | ok p =>
      simp only [hm]
      intro x hx
      rcases mem_dictInsert hx with h1 | h2
      · exact h x h1
      · subst h2
        exact (mkPosition_ok_fields hm).2.1

theorem update_position_posNE (s : Store) (pos_id : String) (name? : Option String)
    (lvl? : Option Int) (sal? : Option Rat) (h : posNE s) :
    posNE (update_position s pos_id name? lvl? sal?).1 := by
  rw [update_position]
  split
  · apply andThen_pred (fun t => posNE t)
    · cases hn : name? with
      | none => exact h
      | some n =>
        simp only [pStepName]
        split
        · split
          · exact h
          · rename_i hne _
            apply posNE_mapPos s pos_id _ h
            intro q _
            simpa using hne
        · exact h
    · intro t1 ht1
      apply andThen_pred (fun t => posNE t)
      · cases hl : lvl? with
        | none => exact ht1
        | some a =>
          simp only [pStepLevel]
          split
          · exact posNE_mapPos t1 pos_id _ ht1 (fun q hq => ht1 q hq)
          · exact ht1
      · intro t2 ht2
        cases hs : sal? with
        | none => exact ht2
        | some v => exact posNE_mapPos t2 pos_id _ ht2 (fun q hq => ht2 q hq)
  · exact h

theorem delete_position_posNE (s : Store) (pos_id : String) (h : posNE s) :
    posNE (delete_position s pos_id).1 := by
  rw [delete_position]
  split
  · exact h
  · split
    · exact h
    · intro x hx
      exact h x (List.mem_of_mem_filter hx)

theorem add_employee_positions (s : Store) (fn ln pid : String) (hdt today : Date) :
    (add_employee s fn ln pid hdt today).1.positions = s.positions := by
  rw [add_employee]
  split
  · rfl
  · split
    · rfl
    · split
      · rfl
      · split <;> rfl

theorem load_data_posNE (s : Store) (doc? : Option Doc) (today : Date)
    (h : posNE s) : posNE (load_data s doc? today).1 := by
  cases doc? with
  | none => exact h
  | some doc =>
    rw [load_data]
    cases hlp : loadPositions doc.positions s with
    | mk s1 e1 =>
      have h1 : posNE s1 := by
        have h2 := loadPositions_posNE doc.positions s h
        rw [hlp] at h2
        exact h2
      cases e1 with
      | some e => exact h1
      | none => exact posNE_congr (loadEmployees_positions doc.employees today s1) h1

theorem posNE_applyOp (op : Op) (s : Store) (h : posNE s) : posNE (applyOp op s).1 := by
  cases op with
  | addPosition n a sal => exact add_position_posNE s n a sal h
  | updatePosition pid n l v => exact update_position_posNE s pid n l v h
  | deletePosition pid => exact delete_position_posNE s pid h
  | addEmployee f l pid hd t => exact posNE_congr (add_employee_positions s f l pid hd t) h
  | updateEmployee eid p t => exact posNE_congr (update_employee_positions s eid p t) h
  | deleteEmployee eid => exact posNE_congr (delete_employee_positions s eid) h
  | load doc t => exact load_data_posNE s doc t h

end Personnel

namespace Personnel

theorem add_position_namesOk (s : Store) (n : String) (a : Int) (sal : Rat)
    (h : namesOk s) (ht : pyStrip n = n)
    (hfresh : ∀ q ∈ s.positions, q.id ≠ natId s.ctr) :
    namesOk (add_position s n a sal).1 := by
  rw [add_position]
  split
  · exact h
  · rename_i hdup
    cases hm : mkPosition n a sal (natId s.ctr) with
    | error e =>
      simp only [hm]
      exact h
    | ok p =>
      simp only [hm]
      obtain ⟨hname, hne, hid⟩ := mkPosition_ok_fields hm
      have hpn : p.name = n := hname.trans ht
      have hins : dictInsert s.positions p = s.positions ++ [p] := by
        rw [dictInsert, if_neg ?_]
        intro hc
        obtain ⟨q, hq, hqb⟩ := List.any_eq_true.mp hc
        exact hfresh q hq (hid ▸ eq_of_beq hqb)
      constructor
      · intro nm hnm
        simp only [save_data, hins, List.map_append] at hnm
        rcases List.mem_append.mp hnm with h1 | h2
        · exact h.1 nm h1
        · simp only [List.map_cons, List.map_nil, List.mem_singleton] at h2
          subst h2
          refine ⟨hne, ?_⟩
          rw [hpn]
          exact ht
      · simp only [save_data, hins, List.map_append]
        rw [List.nodup_append]
        refine ⟨h.2, by simp, ?_⟩
        intro x hx1 hx2
        simp only [List.map_cons, List.map_nil, List.mem_singleton] at hx2
        subst hx2
        simp only [List.map_map] at hx1
        obtain ⟨q, hq, hqe⟩ := List.mem_map.mp hx1
        apply hdup
        apply List.any_eq_true.mpr
        refine ⟨q, hq, ?_⟩
        have : pyLower q.name = pyLower n := by
          simpa only [Function.comp_apply, hpn] using hqe
        simp [this]

theorem update_position_namesOk (s : Store) (pos_id : String)
    (name? : Option String) (lvl? : Option Int) (sal? : Option Rat)
    (h : namesOk s) (ht : ∀ m, name? = some m → pyStrip m = m)
    (hids : (s.positions.map Position.id).Nodup) :
    namesOk (update_position s pos_id name? lvl? sal?).1 := by
  rw [update_position]
  split
  · apply andThen_pred (fun t => namesOk t)
    · cases hn : name? with
      | none => exact h
      | some m =>
        simp only [pStepName]
        split
        · split
          · exact h
          · rename_i hne hdup
            constructor
            · intro nm hnm
              simp only [mapPos, List.map_map] at hnm
              obtain ⟨q, hq, hqe⟩ := List.mem_map.mp hnm
              simp only [Function.comp_apply] at hqe
              by_cases hb : (q.id == pos_id) = true
              · rw [if_pos hb] at hqe
                have hnm2 : nm = m := hqe.symm
                rw [hnm2]
                exact ⟨by simpa using hne, ht m hn⟩
              · rw [if_neg hb] at hqe
                exact h.1 nm (hqe ▸ List.mem_map_of_mem Position.name hq)
            · have heq : (((mapPos s pos_id (fun q => { q with name := m })).positions.map
                    Position.name).map pyLower) =
                  s.positions.map (fun q => if q.id == pos_id then pyLower m
                    else pyLower q.name) := by
                simp only [mapPos, List.map_map]
                apply List.map_congr_left
                intro q _
                simp only [Function.comp_apply]
                by_cases hb : (q.id == pos_id) = true
                · rw [if_pos hb, if_pos hb]
                · rw [if_neg hb, if_neg hb]
              rw [heq]
              apply nodup_rename s.positions pos_id (pyLower m) hids
              · have h2 := h.2
                rw [List.map_map] at h2
                exact h2
              · intro q hq hqid hcontra
                apply hdup
                apply List.any_eq_true.mpr
                refine ⟨q, hq, ?_⟩
                simp [hcontra, bne, hqid]
        · exact h
    · intro t1 ht1
      apply andThen_pred (fun t => namesOk t)
      · cases hl : lvl? with
        | none => exact ht1
        | some a =>
          simp only [pStepLevel]
          split
          · exact namesOk_congr (mapPos_names t1 pos_id _ (fun q => rfl)) ht1
          · exact ht1
      · intro t2 ht2
        cases hs : sal? with
        | none => exact ht2
        | some v => exact namesOk_congr (mapPos_names t2 pos_id _ (fun q => rfl)) ht2
  · exact h

theorem delete_position_namesOk (s : Store) (pos_id : String) (h : namesOk s) :
    namesOk (delete_position s pos_id).1 := by
  rw [delete_position]
  split
  · exact h
  · split
    · exact h
    · have hsub : List.Sublist
          (((s.positions.filter (fun p => p.id != pos_id)).map
            Position.name).map pyLower)
          ((s.positions.map Position.name).map pyLower) :=
        ((s.positions.filter_sublist).map Position.name).map pyLower
      constructor
      · intro nm hnm
        obtain ⟨q, hq, hqe⟩ := List.mem_map.mp hnm
        exact h.1 nm (hqe ▸ List.mem_map_of_mem Position.name (List.mem_of_mem_filter hq))
      · exact List.Nodup.sublist hsub h.2

end Personnel

namespace Personnel

/-- C3 counterexample: starting from the empty store, addPosition "Dev" succeeds
and a subsequent updatePosition with name " Dev2 " succeeds and stores the name
verbatim, leaving a stored position name with surrounding whitespace. -/
theorem position_names_cx :
    (add_position emptyStore "Dev" 1 0).2 = none ∧
    (update_position (add_position emptyStore "Dev" 1 0).1 "0"
      (some " Dev2 ") none none).2 = none ∧
    (update_position (add_position emptyStore "Dev" 1 0).1 "0"
      (some " Dev2 ") none none).1.positions.map Position.name = [" Dev2 "] ∧
    pyStrip " Dev2 " ≠ " Dev2 " := by
  decide

/-- C3 amended: non-emptiness of stored names holds after every operation, but
trimmedness and case-insensitive uniqueness are only preserved when the names
supplied to addPosition and updatePosition are already trimmed (updatePosition
stores the supplied name verbatim, without trimming, as the counterexample
shows; addPosition checks uniqueness against the raw argument before
stripping); under those hypotheses, and with distinct ids and a fresh generated
id, addPosition, updatePosition and deletePosition preserve the full name
invariant. -/
theorem position_names_amended_C3 (op : Op) (s : Store) (n : String) (a : Int)
    (sal : Rat) (pid : String) (name? : Option String) (lvl? : Option Int)
    (sal? : Option Rat) :
    (posNE s → posNE (applyOp op s).1) ∧
    (namesOk s → pyStrip n = n → (∀ q ∈ s.positions, q.id ≠ natId s.ctr) →
      namesOk (add_position s n a sal).1) ∧
    (namesOk s → (∀ m, name? = some m → pyStrip m = m) →
      (s.positions.map Position.id).Nodup →
      namesOk (update_position s pid name? lvl? sal?).1) ∧
    (namesOk s → namesOk (delete_position s pid).1) :=
  ⟨posNE_applyOp op s,
   fun h ht hf => add_position_namesOk s n a sal h ht hf,
   fun h ht hi => update_position_namesOk s pid name? lvl? sal? h ht hi,
   fun h => delete_position_namesOk s pid h⟩

/-- Witness for C3 amended at concrete stores and operations. -/
theorem position_names_amended_C3_witness :
    (posNE ⟨[⟨"p1", "Dev", 1, 0⟩], [], ([], []), 0⟩ ∧
      posNE (applyOp (Op.updatePosition "p1" (some " Dev2 ") none none)
        ⟨[⟨"p1", "Dev", 1, 0⟩], [], ([], []), 0⟩).1) ∧
    (namesOk ⟨[⟨"p1", "Dev", 1, 0⟩], [], ([], []), 0⟩ ∧
      pyStrip "QA" = "QA" ∧
      (∀ q ∈ (⟨[⟨"p1", "Dev", 1, 0⟩], [], ([], []), 0⟩ : Store).positions,
        q.id ≠ natId 0) ∧
      namesOk (add_position ⟨[⟨"p1", "Dev", 1, 0⟩], [], ([], []), 0⟩ "QA" 2 0).1) ∧
    (namesOk (update_position ⟨[⟨"p1", "Dev", 1, 0⟩], [], ([], []), 0⟩ "p1"
      (some "Dev2") none none).1) ∧
    (namesOk (delete_position ⟨[⟨"p1", "Dev", 1, 0⟩], [], ([], []), 0⟩ "p1").1) :=
  ⟨⟨by decide,
    (position_names_amended_C3 (Op.updatePosition "p1" (some " Dev2 ") none none)
      ⟨[⟨"p1", "Dev", 1, 0⟩], [], ([], []), 0⟩ "" 1 0 "" none none none).1
      (by decide)⟩,
   ⟨by decide, by decide, by decide,
    (position_names_amended_C3 (Op.deletePosition "")
      ⟨[⟨"p1", "Dev", 1, 0⟩], [], ([], []), 0⟩ "QA" 2 0 "" none none none).2.1
      (by decide) (by decide) (by decide)⟩,
   (position_names_amended_C3 (Op.deletePosition "")
      ⟨[⟨"p1", "Dev", 1, 0⟩], [], ([], []), 0⟩ "" 1 0 "p1" (some "Dev2") none
      none).2.2.1 (by decide) (by decide) (by decide),
   (position_names_amended_C3 (Op.deletePosition "")
      ⟨[⟨"p1", "Dev", 1, 0⟩], [], ([], []), 0⟩ "" 1 0 "p1" none none none).2.2.2
      (by decide)⟩

/-- C5: under referential integrity, deletePosition fails with NotFoundError
when the id is absent, fails with ReferencedError when at least one employee
references the position (however many), and otherwise removes exactly that
position and persists the result. -/
theorem delete_position_C5 (s : Store) (pos_id : String) (h : empInv s) :
    (s.positions.any (fun p => p.id == pos_id) = false →
      delete_position s pos_id = (s, some Err.positionNotFound)) ∧
    (s.employees.any (fun e => e.position_id == pos_id) = true →
      delete_position s pos_id = (s, some Err.referenced)) ∧
    (s.positions.any (fun p => p.id == pos_id) = true →
      s.employees.any (fun e => e.position_id == pos_id) = false →
      (delete_position s pos_id).2 = none ∧
      (delete_position s pos_id).1.positions =
        s.positions.filter (fun p => p.id != pos_id) ∧
      (delete_position s pos_id).1.saved =
        ((delete_position s pos_id).1.positions, s.employees)) := by
  refine ⟨?_, ?_, ?_⟩
  · intro habs
    have hrefs : s.employees.any (fun e => e.position_id == pos_id) = false := by
      by_contra hc
      rw [Bool.not_eq_false] at hc
      obtain ⟨e, he, heb⟩ := List.any_eq_true.mp hc
      obtain ⟨q, hq, hqe⟩ := List.mem_map.mp (h e he)
      have : (q.id == pos_id) = true := by
        rw [hqe, eq_of_beq heb]
        exact beq_self_eq_true pos_id
      exact absurd (List.any_eq_true.mpr ⟨q, hq, this⟩) (by rw [habs]; simp)
    rw [delete_position, if_neg (by rw [hrefs]; simp), if_pos (by rw [habs]; simp)]
  · intro href
    rw [delete_position, if_pos href]
  · intro hpres hrefs
    rw [delete_position, if_neg (by rw [hrefs]; simp),
      if_neg (by rw [hpres]; simp)]
    exact ⟨rfl, rfl, rfl⟩

/-- Witness for C5: the spec scenario with one referenced and one unreferenced
position. -/
theorem delete_position_C5_witness :
    (delete_position
      ⟨[⟨"p1", "Dev", 1, 0⟩, ⟨"p2", "QA", 2, 0⟩],
        [⟨"e1", "Anna", "Kovalenko", "p1", ⟨2020, 1, 1⟩⟩], ([], []), 0⟩ "p3" =
      (⟨[⟨"p1", "Dev", 1, 0⟩, ⟨"p2", "QA", 2, 0⟩],
        [⟨"e1", "Anna", "Kovalenko", "p1", ⟨2020, 1, 1⟩⟩], ([], []), 0⟩,
        some Err.positionNotFound)) ∧
    (delete_position
      ⟨[⟨"p1", "Dev", 1, 0⟩, ⟨"p2", "QA", 2, 0⟩],
        [⟨"e1", "Anna", "Kovalenko", "p1", ⟨2020, 1, 1⟩⟩], ([], []), 0⟩ "p1" =
      (⟨[⟨"p1", "Dev", 1, 0⟩, ⟨"p2", "QA", 2, 0⟩],
        [⟨"e1", "Anna", "Kovalenko", "p1", ⟨2020, 1, 1⟩⟩], ([], []), 0⟩,
        some Err.referenced)) ∧
    ((delete_position
      ⟨[⟨"p1", "Dev", 1, 0⟩, ⟨"p2", "QA", 2, 0⟩],
        [⟨"e1", "Anna", "Kovalenko", "p1", ⟨2020, 1, 1⟩⟩], ([], []), 0⟩ "p2").2 =
      none) :=
  ⟨(delete_position_C5
      ⟨[⟨"p1", "Dev", 1, 0⟩, ⟨"p2", "QA", 2, 0⟩],
        [⟨"e1", "Anna", "Kovalenko", "p1", ⟨2020, 1, 1⟩⟩], ([], []), 0⟩ "p3"
      (by decide)).1 (by decide),
   (delete_position_C5
      ⟨[⟨"p1", "Dev", 1, 0⟩, ⟨"p2", "QA", 2, 0⟩],
        [⟨"e1", "Anna", "Kovalenko", "p1", ⟨2020, 1, 1⟩⟩], ([], []), 0⟩ "p1"
      (by decide)).2.1 (by decide),
   ((delete_position_C5
      ⟨[⟨"p1", "Dev", 1, 0⟩, ⟨"p2", "QA", 2, 0⟩],
        [⟨"e1", "Anna", "Kovalenko", "p1", ⟨2020, 1, 1⟩⟩], ([], []), 0⟩ "p2"
      (by decide)).2.2 (by decide) (by decide)).1⟩

end Personnel

namespace Personnel

theorem empFromDict_skip {r : ERec} {P : List Position} {today : Date}
    {fresh : String} (hbad : softBad P r = true) :
    empFromDict r P today fresh = .ok none := by
  rw [empFromDict]
  cases hp : parseDate (r.hire_date.getD "") with
  | none => rfl
  | some hd =>
    cases hf : r.position_id.bind (fun pid => P.find? (fun p => p.id == pid)) with
    | none => rfl
    | some pos =>
      exfalso
      rw [softBad, hp, hf] at hbad
      simp at hbad

theorem softBad_not_good {P : List Position} {today : Date} {r : ERec}
    (hbad : softBad P r = true) : goodRec P today r = false := by
  rw [goodRec]
  cases hp : parseDate (r.hire_date.getD "") with
  | none => rfl
  | some hd =>
    cases hf : r.position_id.bind (fun pid => P.find? (fun p => p.id == pid)) with
    | none => simp [hf]
    | some pos =>
      exfalso
      rw [softBad, hp, hf] at hbad
      simp at hbad

theorem empFromDict_good {r : ERec} {P : List Position} {today : Date}
    {fresh : String} (hgood : goodRec P today r = true) :
    ∃ hd pos, parseDate (r.hire_date.getD "") = some hd ∧
      r.position_id.bind (fun pid => P.find? (fun p => p.id == pid)) = some pos ∧
      empFromDict r P today fresh =
        .ok (some ⟨r.id.getD fresh, r.first_name.getD "", r.last_name.getD "",
          pos.id, hd⟩) := by
  rw [goodRec] at hgood
  cases hp : parseDate (r.hire_date.getD "") with
  | none => rw [hp] at hgood; simp at hgood
  | some hd =>
    rw [hp] at hgood
    cases hf : r.position_id.bind (fun pid => P.find? (fun p => p.id == pid)) with
    | none => rw [hf] at hgood; simp at hgood
    | some pos =>
      rw [hf] at hgood
      simp only [Option.isSome_some, Bool.true_and, Bool.and_eq_true] at hgood
      obtain ⟨⟨hvf, hvl⟩, hdt⟩ := hgood
      refine ⟨hd, pos, rfl, rfl, ?_⟩
      have hm : mkEmployee (r.first_name.getD "") (r.last_name.getD "") pos.id hd
          today (r.id.getD fresh) =
          .ok ⟨r.id.getD fresh, r.first_name.getD "", r.last_name.getD "",
            pos.id, hd⟩ := by
        rw [mkEmployee, if_neg (by simp [hvf]), if_neg (by simp [hvl]),
          if_neg (by simp [hdt])]
      rw [empFromDict, hp, hf]
      simp only [hm]

theorem loadEmployees_good (rs : List ERec) (today : Date) (s : Store)
    (h : ∀ r ∈ rs, softBad s.positions r = true ∨
      goodRec s.positions today r = true) :
    (loadEmployees rs today s).2 = none ∧
    (loadEmployees rs today s).1.employees.map namePair =
      s.employees.map namePair ++
        (rs.filter (goodRec s.positions today)).map recNamePair := by
  induction rs generalizing s with
  | nil => exact ⟨rfl, by simp [loadEmployees]⟩
  | cons r rest ih =>
    rcases h r (List.mem_cons_self _ _) with hbad | hgood
    · have hskip : empFromDict r s.positions today (natId s.ctr) = .ok none :=
        empFromDict_skip hbad
      simp only [loadEmployees, hskip]
      have hrec := ih s (fun x hx => h x (List.mem_cons_of_mem _ hx))
      rw [List.filter_cons, if_neg (by simp [softBad_not_good hbad])]
      exact hrec
    · obtain ⟨hd, pos, hp, hf, hstep⟩ :=
        @empFromDict_good r s.positions today (natId s.ctr) hgood
      simp only [loadEmployees, hstep]
      have hrec := ih
        { s with employees := s.employees ++
            [⟨r.id.getD (natId s.ctr), r.first_name.getD "", r.last_name.getD "",
              pos.id, hd⟩], ctr := s.ctr + 1 }
        (fun x hx => h x (List.mem_cons_of_mem _ hx))
      refine ⟨hrec.1, ?_⟩
      rw [hrec.2, List.filter_cons, if_pos (by simp [hgood])]
      simp [namePair, recNamePair, List.append_assoc]

/-- C6: when the positions of a document load cleanly and every employee record
is either soft-bad (unparseable date or unresolvable position id) or fully
well-formed, load succeeds with no exception, the soft-bad records are skipped,
and the loaded employees are exactly the well-formed records, in order. -/
theorem load_soft_skip_C6 (s : Store) (doc : Doc) (today : Date) (s1 : Store)
    (hlp : loadPositions doc.positions s = (s1, none))
    (h : ∀ r ∈ doc.employees, softBad s1.positions r = true ∨
      goodRec s1.positions today r = true) :
    (load_data s (some doc) today).2 = none ∧
    (load_data s (some doc) today).1.employees.map namePair =
      s1.employees.map namePair ++
        (doc.employees.filter (goodRec s1.positions today)).map recNamePair := by
  rw [load_data, hlp]
  exact loadEmployees_good doc.employees today s1 h

end Personnel

namespace Personnel

theorem loadEmployees_append (xs ys : List ERec) (today : Date) (s : Store) :
    loadEmployees (xs ++ ys) today s =
      (match loadEmployees xs today s with
       | (t, none) => loadEmployees ys today t
       | (t, some e) => (t, some e)) := by
  induction xs generalizing s with
  | nil => simp [loadEmployees]
  | cons x rest ih =>
    rw [List.cons_append]
    cases he : empFromDict x s.positions today (natId s.ctr) with
    | error e => simp only [loadEmployees, he]
    | ok o =>
      cases o with
      | none =>
        simp only [loadEmployees, he]
        exact ih s
      | some emp =>
        simp only [loadEmployees, he]
        exact ih _

theorem mkEmployee_err_validation {f l pid : String} {hd t : Date} {i : String}
    (hbad : (!(validate_name f) || !(validate_name l) || !(Date.le hd t)) = true) :
    ∃ e, mkEmployee f l pid hd t i = .error e ∧ isValidationErr e = true := by
  rw [mkEmployee]
  cases hf : validate_name f with
  | false => exact ⟨.invalidFirstName, by simp [hf], rfl⟩
  | true =>
    cases hl : validate_name l with
    | false => exact ⟨.invalidLastName, by simp [hf, hl], rfl⟩
    | true =>
      cases hdt : Date.le hd t with
      | false => exact ⟨.futureHireDate, by simp [hf, hl, hdt], rfl⟩
      | true => simp [hf, hl, hdt] at hbad

/-- C10: load aborts with an uncaught ValidationError when a record has a
parseable date and resolvable position id but an invalid (possibly defaulted)
name or a future date; only unparseable dates and dangling references are
soft-skipped (C6), and the records before the offending one are processed
normally. -/
theorem load_hard_abort_C10 (s : Store) (doc : Doc) (today : Date) (s1 : Store)
    (pre rest : List ERec) (r : ERec) (hd : Date)
    (hlp : loadPositions doc.positions s = (s1, none))
    (hsplit : doc.employees = pre ++ r :: rest)
    (hpre : ∀ x ∈ pre, softBad s1.positions x = true ∨
      goodRec s1.positions today x = true)
    (hp : parseDate (r.hire_date.getD "") = some hd)
    (hres : (r.position_id.bind (fun pid =>
      s1.positions.find? (fun p => p.id == pid))).isSome = true)
    (hbad : (!(validate_name (r.first_name.getD "")) ||
      !(validate_name (r.last_name.getD "")) || !(Date.le hd today)) = true) :
    (load_data s (some doc) today).2.map isValidationErr = some true := by
  rw [load_data, hlp]
  show (loadEmployees doc.employees today s1).2.map isValidationErr = some true
  rw [hsplit, loadEmployees_append]
  have hgood := loadEmployees_good pre today s1 hpre
  cases hle : loadEmployees pre today s1 with
  | mk t e1 =>
    have he1 : e1 = none := by
      have h2 := hgood.1
      rw [hle] at h2
      exact h2
    subst he1
    show (loadEmployees (r :: rest) today t).2.map isValidationErr = some true
    have hpos : t.positions = s1.positions := by
      have h3 := loadEmployees_positions pre today s1
      rw [hle] at h3
      exact h3
    obtain ⟨pos, hpos2⟩ := Option.isSome_iff_exists.mp hres
    obtain ⟨e, hm, hval⟩ := @mkEmployee_err_validation (r.first_name.getD "")
      (r.last_name.getD "") pos.id hd today (r.id.getD (natId t.ctr)) hbad
    have hstep : empFromDict r t.positions today (natId t.ctr) = .error e := by
      rw [empFromDict, hpos, hp, hpos2]
      simp only [hm]
    simp only [loadEmployees, hstep]
    simp [hval]

end Personnel

namespace Personnel

/-- Witness for C6: the spec scenario, a document with two well-formed employee
records and one with an unparseable date loads with no exception and yields
exactly the two well-formed employees. -/
theorem load_soft_skip_C6_witness :
    loadPositions [⟨some "p1", some "Dev", some 1, some 0⟩] emptyStore =
      (⟨[⟨"p1", "Dev", 1, 0⟩], [], ([], []), 1⟩, none) ∧
    (∀ r ∈ [(⟨some "e1", some "Anna", some "Kovalenko", some "p1",
        some "2020-01-01"⟩ : ERec),
      ⟨some "e2", some "Bad", some "Data", some "p1", some "oops"⟩,
      ⟨some "e3", some "Ivan", some "Petrenko", some "p1", some "2021-05-05"⟩],
      softBad [⟨"p1", "Dev", 1, 0⟩] r = true ∨
      goodRec [⟨"p1", "Dev", 1, 0⟩] ⟨2026, 1, 1⟩ r = true) ∧
    (load_data emptyStore (some ⟨[⟨some "p1", some "Dev", some 1, some 0⟩],
      [⟨some "e1", some "Anna", some "Kovalenko", some "p1", some "2020-01-01"⟩,
       ⟨some "e2", some "Bad", some "Data", some "p1", some "oops"⟩,
       ⟨some "e3", some "Ivan", some "Petrenko", some "p1", some "2021-05-05"⟩]⟩)
      ⟨2026, 1, 1⟩).2 = none ∧
    (load_data emptyStore (some ⟨[⟨some "p1", some "Dev", some 1, some 0⟩],
      [⟨some "e1", some "Anna", some "Kovalenko", some "p1", some "2020-01-01"⟩,
       ⟨some "e2", some "Bad", some "Data", some "p1", some "oops"⟩,
       ⟨some "e3", some "Ivan", some "Petrenko", some "p1", some "2021-05-05"⟩]⟩)
      ⟨2026, 1, 1⟩).1.employees.map namePair =
      [("Anna", "Kovalenko"), ("Ivan", "Petrenko")] :=
  ⟨by decide, by decide,
   (load_soft_skip_C6 emptyStore
      ⟨[⟨some "p1", some "Dev", some 1, some 0⟩],
       [⟨some "e1", some "Anna", some "Kovalenko", some "p1", some "2020-01-01"⟩,
        ⟨some "e2", some "Bad", some "Data", some "p1", some "oops"⟩,
        ⟨some "e3", some "Ivan", some "Petrenko", some "p1", some "2021-05-05"⟩]⟩
      ⟨2026, 1, 1⟩ ⟨[⟨"p1", "Dev", 1, 0⟩], [], ([], []), 1⟩ (by decide)
      (by decide)).1,
   by
    rw [(load_soft_skip_C6 emptyStore
      ⟨[⟨some "p1", some "Dev", some 1, some 0⟩],
       [⟨some "e1", some "Anna", some "Kovalenko", some "p1", some "2020-01-01"⟩,
        ⟨some "e2", some "Bad", some "Data", some "p1", some "oops"⟩,
        ⟨some "e3", some "Ivan", some "Petrenko", some "p1", some "2021-05-05"⟩]⟩
      ⟨2026, 1, 1⟩ ⟨[⟨"p1", "Dev", 1, 0⟩], [], ([], []), 1⟩ (by decide)
      (by decide)).2]
    decide⟩

/-- Witness for C10: a record with a parseable date and resolving position id
but a missing first name (defaulting to the empty string) aborts the load with
a validation error, after a soft-bad record before it was skipped. -/
theorem load_hard_abort_C10_witness :
    loadPositions [⟨some "p1", some "Dev", some 1, some 0⟩] emptyStore =
      (⟨[⟨"p1", "Dev", 1, 0⟩], [], ([], []), 1⟩, none) ∧
    ([(⟨some "e2", some "Bad", some "Data", some "p1", some "oops"⟩ : ERec),
      ⟨some "e1", none, some "Kovalenko", some "p1", some "2020-01-01"⟩] =
      [⟨some "e2", some "Bad", some "Data", some "p1", some "oops"⟩] ++
      (⟨some "e1", none, some "Kovalenko", some "p1", some "2020-01-01"⟩ : ERec)
        :: []) ∧
    parseDate (((⟨some "e1", none, some "Kovalenko", some "p1",
      some "2020-01-01"⟩ : ERec)).hire_date.getD "") = some ⟨2020, 1, 1⟩ ∧
    (load_data emptyStore (some ⟨[⟨some "p1", some "Dev", some 1, some 0⟩],
      [⟨some "e2", some "Bad", some "Data", some "p1", some "oops"⟩,
       ⟨some "e1", none, some "Kovalenko", some "p1", some "2020-01-01"⟩]⟩)
      ⟨2026, 1, 1⟩).2.map isValidationErr = some true :=
  ⟨by decide, by decide, by decide,
   load_hard_abort_C10 emptyStore
     ⟨[⟨some "p1", some "Dev", some 1, some 0⟩],
      [⟨some "e2", some "Bad", some "Data", some "p1", some "oops"⟩,
       ⟨some "e1", none, some "Kovalenko", some "p1", some "2020-01-01"⟩]⟩
     ⟨2026, 1, 1⟩ ⟨[⟨"p1", "Dev", 1, 0⟩], [], ([], []), 1⟩
     [⟨some "e2", some "Bad", some "Data", some "p1", some "oops"⟩] []
     ⟨some "e1", none, some "Kovalenko", some "p1", some "2020-01-01"⟩
     ⟨2020, 1, 1⟩ (by decide) (by decide) (by decide) (by decide) (by decide)
     (by decide)⟩

end Personnel

namespace Personnel

theorem listLe_trans : ∀ as bs cs, listLe as bs = true → listLe bs cs = true →
    listLe as cs = true
  | [], _, _, _, _ => rfl
  | _ :: _, [], _, h1, _ => by rw [listLe] at h1; exact absurd h1 (by simp)
  | _ :: _, _ :: _, [], _, h2 => by rw [listLe] at h2; exact absurd h2 (by simp)
  | a :: as, b :: bs, c :: cs, h1, h2 => by
    rw [listLe] at h1 h2 ⊢
    by_cases hab : a.toNat < b.toNat
    · by_cases hbc : b.toNat < c.toNat
      · rw [if_pos (Nat.lt_trans hab hbc)]
      · by_cases hcb : c.toNat < b.toNat
        · rw [if_neg hbc, if_pos hcb] at h2
          exact absurd h2 (by simp)
        · rw [if_pos (by omega)]
    · by_cases hba : b.toNat < a.toNat
      · rw [if_neg hab, if_pos hba] at h1
        exact absurd h1 (by simp)
      · rw [if_neg hab, if_neg hba] at h1
        by_cases hbc : b.toNat < c.toNat
        · rw [if_pos (by omega)]
        · by_cases hcb : c.toNat < b.toNat
          · rw [if_neg hbc, if_pos hcb] at h2
            exact absurd h2 (by simp)
          · rw [if_neg hbc, if_neg hcb] at h2
            rw [if_neg (by omega), if_neg (by omega)]
            exact listLe_trans as bs cs h1 h2

theorem listLe_total : ∀ as bs, (listLe as bs || listLe bs as) = true
  | [], _ => by rw [listLe]; simp
  | _ :: _, [] => by simp [listLe]
  | a :: as, b :: bs => by
    rw [listLe, listLe]
    by_cases hab : a.toNat < b.toNat
    · simp [hab]
    · by_cases hba : b.toNat < a.toNat
      · simp [hab, hba]
      · rw [if_neg hab, if_neg hba, if_neg hba, if_neg hab]
        exact listLe_total as bs

theorem pyStrLe_trans {a b c : String} (h1 : pyStrLe a b = true)
    (h2 : pyStrLe b c = true) : pyStrLe a c = true :=
  listLe_trans a.data b.data c.data h1 h2

theorem pyStrLe_total (a b : String) : (pyStrLe a b || pyStrLe b a) = true :=
  listLe_total a.data b.data

theorem dateLe_trans {a b c : Date} (h1 : Date.le a b = true)
    (h2 : Date.le b c = true) : Date.le a c = true := by
  simp only [Date.le, decide_eq_true_eq] at h1 h2 ⊢
  omega

theorem dateLe_total (a b : Date) : (Date.le a b || Date.le b a) = true := by
  simp only [Date.le, Bool.or_eq_true, decide_eq_true_eq]
  omega

theorem sortKeyLe_trans (s : Store) (key : String) :
    ∀ a b c, sortKeyLe s key a b = true → sortKeyLe s key b c = true →
      sortKeyLe s key a c = true := by
  rw [sortKeyLe]
  split
  · exact fun a b c h1 h2 => pyStrLe_trans h1 h2
  · split
    · exact fun a b c h1 h2 => dateLe_trans h1 h2
    · exact fun a b c h1 h2 => pyStrLe_trans h1 h2

theorem sortKeyLe_total (s : Store) (key : String) :
    ∀ a b, (sortKeyLe s key a b || sortKeyLe s key b a) = true := by
  rw [sortKeyLe]
  split
  · exact fun a b => pyStrLe_total _ _
  · split
    · exact fun a b => dateLe_total _ _
    · exact fun a b => pyStrLe_total _ _

end Personnel

namespace Personnel

/-- C8: list_employees returns a permutation of the stored employees, sorted
ascending by the selected key comparison (position comparing the referenced
Position name case-insensitively), stable (any two employees appearing in
input order whose keys compare le keep their order, which settles ties by
input order), defaulting any unknown sortKey to last_name; it never mutates
the stored collection (the embedding returns a fresh list and leaves the store
untouched) and calling it twice yields identical sequences. -/
theorem list_employees_C8 (s : Store) (k : String) :
    (list_employees s k).Perm s.employees ∧
    (list_employees s k).Pairwise (fun a b => sortKeyLe s (normKey k) a b = true) ∧
    (∀ a b, sortKeyLe s (normKey k) a b = true →
      List.Sublist [a, b] s.employees →
      List.Sublist [a, b] (list_employees s k)) ∧
    (["last_name", "position", "hire_date"].contains k = false →
      list_employees s k = list_employees s "last_name") ∧
    list_employees s k = list_employees s k := by
  refine ⟨?_, ?_, ?_, ?_, rfl⟩
  · exact List.mergeSort_perm s.employees _
  · exact List.sorted_mergeSort (sortKeyLe_trans s (normKey k))
      (fun a b => sortKeyLe_total s (normKey k) a b) s.employees
  · intro a b hab hsub
    exact List.pair_sublist_mergeSort (sortKeyLe_trans s (normKey k))
      (fun a b => sortKeyLe_total s (normKey k) a b) hab hsub
  · intro h
    rw [list_employees, list_employees, normKey, if_neg (by simpa using h), normKey,
      if_pos (by decide)]

end Personnel

namespace Personnel

/-- Witness for C8 at a concrete store: two employees whose positions have
case-insensitively equal names keep their input order under the position sort,
and an unknown sort key falls back to last_name. -/
theorem list_employees_C8_witness :
    (sortKeyLe
        ⟨[⟨"p1", "Dev", 1, 0⟩, ⟨"p2", "dev", 2, 0⟩],
          [⟨"e1", "Anna", "Kovalenko", "p1", ⟨2020, 1, 1⟩⟩,
           ⟨"e2", "Ivan", "Petrenko", "p2", ⟨2021, 5, 5⟩⟩], ([], []), 0⟩
        (normKey "position")
        ⟨"e1", "Anna", "Kovalenko", "p1", ⟨2020, 1, 1⟩⟩
        ⟨"e2", "Ivan", "Petrenko", "p2", ⟨2021, 5, 5⟩⟩ = true ∧
      List.Sublist
        [⟨"e1", "Anna", "Kovalenko", "p1", ⟨2020, 1, 1⟩⟩,
         ⟨"e2", "Ivan", "Petrenko", "p2", ⟨2021, 5, 5⟩⟩]
        (⟨[⟨"p1", "Dev", 1, 0⟩, ⟨"p2", "dev", 2, 0⟩],
          [⟨"e1", "Anna", "Kovalenko", "p1", ⟨2020, 1, 1⟩⟩,
           ⟨"e2", "Ivan", "Petrenko", "p2", ⟨2021, 5, 5⟩⟩], ([], []), 0⟩ :
          Store).employees ∧
      List.Sublist
        [⟨"e1", "Anna", "Kovalenko", "p1", ⟨2020, 1, 1⟩⟩,
         ⟨"e2", "Ivan", "Petrenko", "p2", ⟨2021, 5, 5⟩⟩]
        (list_employees
          ⟨[⟨"p1", "Dev", 1, 0⟩, ⟨"p2", "dev", 2, 0⟩],
            [⟨"e1", "Anna", "Kovalenko", "p1", ⟨2020, 1, 1⟩⟩,
             ⟨"e2", "Ivan", "Petrenko", "p2", ⟨2021, 5, 5⟩⟩], ([], []), 0⟩
          "position")) ∧
    (["last_name", "position", "hire_date"].contains "bogus" = false ∧
      list_employees
        ⟨[⟨"p1", "Dev", 1, 0⟩, ⟨"p2", "dev", 2, 0⟩],
          [⟨"e1", "Anna", "Kovalenko", "p1", ⟨2020, 1, 1⟩⟩,
           ⟨"e2", "Ivan", "Petrenko", "p2", ⟨2021, 5, 5⟩⟩], ([], []), 0⟩ "bogus" =
      list_employees
        ⟨[⟨"p1", "Dev", 1, 0⟩, ⟨"p2", "dev", 2, 0⟩],
          [⟨"e1", "Anna", "Kovalenko", "p1", ⟨2020, 1, 1⟩⟩,
           ⟨"e2", "Ivan", "Petrenko", "p2", ⟨2021, 5, 5⟩⟩], ([], []), 0⟩
        "last_name") :=
  ⟨⟨by decide, List.Sublist.refl _,
    (list_employees_C8
        ⟨[⟨"p1", "Dev", 1, 0⟩, ⟨"p2", "dev", 2, 0⟩],
          [⟨"e1", "Anna", "Kovalenko", "p1", ⟨2020, 1, 1⟩⟩,
           ⟨"e2", "Ivan", "Petrenko", "p2", ⟨2021, 5, 5⟩⟩], ([], []), 0⟩
        "position").2.2.1
      ⟨"e1", "Anna", "Kovalenko", "p1", ⟨2020, 1, 1⟩⟩
      ⟨"e2", "Ivan", "Petrenko", "p2", ⟨2021, 5, 5⟩⟩
      (by decide) (List.Sublist.refl _)⟩,
   ⟨by decide,
    (list_employees_C8
        ⟨[⟨"p1", "Dev", 1, 0⟩, ⟨"p2", "dev", 2, 0⟩],
          [⟨"e1", "Anna", "Kovalenko", "p1", ⟨2020, 1, 1⟩⟩,
           ⟨"e2", "Ivan", "Petrenko", "p2", ⟨2021, 5, 5⟩⟩], ([], []), 0⟩
        "bogus").2.2.2.1 (by decide)⟩⟩

end Personnel
